import Mathlib

/-
Verification development for the `circuit` library (file `src/circuit/circuit.py`,
rich variant).  The Python code is shallowly embedded:

* A logical operation (an instance of `logical.logical`) is a truth table,
  modelled as a list of bits `Op`; `arityOf` is `log2` of the table length and
  `appOp` indexes the table by the big-endian value of the argument bits,
  exactly as `logical.logical.__call__` / the compiled `function` do.
  `logical.nullary` is the two-element set of nullary operations `(0,)`, `(1,)`.
* A `gate` object is a record `Gate` with the same fields as the Python class
  (`operation`, `inputs`, `outputs`, `index`, `is_input`, `is_output`,
  `is_marked`).  Python object references are modelled as indices into an
  arena: a circuit state `CState` holds the arena of every gate ever created
  (`arena`) and the current gate list of the circuit (`gates`, a list of arena
  indices).  Gates removed by pruning simply stop appearing in `gates`.
* Python exceptions are modelled with `Except` / `Option`: a function returns
  `Except err state` or `Option state`, `none`/`.error` meaning that the Python
  code raises at the corresponding point.
-/

namespace CircuitPy

/-- A logical operation: its truth table as a list of bits (`logical.logical`
is a tuple of 0/1 integers). -/
abbrev Op := List Nat

/-- Structural floor-log2 with explicit fuel (`lg2F n n` computes `⌊log2 n⌋`
for `n ≥ 1`; the fuel argument only makes the recursion structural). -/
def lg2F : Nat → Nat → Nat
  | 0, _ => 0
  | fuel + 1, n => if 2 ≤ n then lg2F fuel (n / 2) + 1 else 0

/-- `logical.logical.arity`: log2 of the truth-table length. -/
def arityOf (o : Op) : Nat := lg2F o.length o.length

/-- Application of an operation to argument bits: index the truth table by the
big-endian binary value of the arguments (as `logical.logical.__call__` does). -/
def appOp (o : Op) (args : List Nat) : Nat :=
  o.getD (args.foldl (fun acc b => 2 * acc + b) 0) 0

/-- The identity operation `op.id_` = `(0, 1)`. -/
def idOp : Op := [0, 1]

/-- The set `logical.nullary` = `{(0,), (1,)}` of nullary operations. -/
def nullaryOps : List Op := [[0], [1]]

/-- One circuit gate; fields follow `gate.__init__`.  The `inputs` and
`outputs` lists hold arena indices of other gates. -/
structure Gate where
  operation : Op
  inputs : List Nat
  outputs : List Nat
  index : Nat
  is_input : Bool
  is_output : Bool
  is_marked : Bool
deriving DecidableEq, Repr

instance : Inhabited Gate := ⟨⟨[], [], [], 0, false, false, false⟩⟩

/-- A circuit state: the arena of all gate objects ever constructed, and the
circuit's current gate list (`circuit.gates`), as arena indices. -/
structure CState where
  arena : List Gate
  gates : List Nat
deriving DecidableEq, Repr

/-- Dereference an arena index (Python attribute access on a gate object). -/
def gd (a : List Gate) (i : Nat) : Gate := a.getD i default

/-- Mutate the gate object at arena index `i` (Python attribute assignment). -/
def setG (a : List Gate) (i : Nat) (f : Gate → Gate) : List Gate :=
  a.set i (f (gd a i))

/-- The empty circuit, `circuit()`. -/
def emptyC : CState := ⟨[], []⟩

/-! ### Gate addition (`circuit.gate`, `gates.gate`, `gate.__init__`) -/

/-- The distinct `ValueError`s that `circuit.gate` can raise, in the order the
checks appear in the source. -/
inductive AddErr where
  /-- `circuit gate inputs must be explicitly identified gates` -/
  | noneInput
  /-- `non-input circuit gate must have its inputs specified` -/
  | missingInputs
  /-- `number of circuit gate inputs must match arity of gate operation` -/
  | arityCircuit
  /-- `input gates must correspond to the identity operation` -/
  | roleInput
  /-- `output gates must correspond to the identity operation` -/
  | roleOutput
  /-- `output gates cannot be designated as inputs into other gates` -/
  | outputReuse
  /-- `number of inputs must equal operation arity or zero` -/
  | arityGate
deriving DecidableEq, Repr

/-- Successful gate construction: `gate.__init__`'s field assignments, its
`ig.output(self)` loop (append `self` to each input gate's `outputs` unless
already present), and `gates.gate`'s `g.index = len(self); self.append(g)`.
All of this happens in the Python source only after every check has passed. -/
def addedGate (s : CState) (o : Op) (ins : List Nat) (ii io : Bool) : CState :=
  let newId := s.arena.length
  let a1 := ins.foldl
    (fun a j =>
      if (gd a j).outputs.contains newId then a
      else setG a j (fun g => { g with outputs := g.outputs ++ [newId] })) s.arena
  let g : Gate := ⟨o, ins, [], s.gates.length, ii, io, false⟩
  ⟨a1 ++ [g], s.gates ++ [newId]⟩

/-- The checks performed by `gate.__init__` (role checks, the output-reuse
loop over `inputs`, the arity-or-zero check), followed by construction.
`insOpt = none` models the Python default `inputs=None`; entries `none` inside
the list model `None` placeholders.  On success at circuit level the list is
`None`-free (`circuitGate` has already rejected placeholders), so the stored
`inputs` list `l.filterMap id` equals the list of supplied gate indices. -/
def gateCtor (s : CState) (o : Op) (insOpt : Option (List (Option Nat))) (ii io : Bool) :
    Except AddErr Unit × CState :=
  if ii && !(o = idOp : Bool) then (.error .roleInput, s)
  else if io && !(o = idOp : Bool) then (.error .roleOutput, s)
  else
    match insOpt with
    | none => (.ok (), addedGate s o [] ii io)
    | some l =>
      if l.any (fun j? =>
          match j? with
          | none => false
          | some j => (gd s.arena j).is_output) then (.error .outputReuse, s)
      else if !(l.length = 0 || l.length = arityOf o : Bool) then (.error .arityGate, s)
      else (.ok (), addedGate s o (l.filterMap id) ii io)

/-- `circuit.gate` (rich variant, lines 958-974): the `None`-placeholder
check, the circuit-level arity checks for non-input gates, then delegation to
the `gate` constructor via `gates.gate`.  The second component is the state
after the call; every `raise` in the source happens before any mutation, so
error branches return the state unchanged. -/
def circuitGate (s : CState) (o : Op) (inputs : Option (List (Option Nat))) (ii io : Bool) :
    Except AddErr Unit × CState :=
  match inputs with
  | none =>
    if !ii && 0 < arityOf o then (.error .missingInputs, s)
    else gateCtor s o none ii io
  | some l =>
    if l.contains none then (.error .noneInput, s)
    else if !ii && !(l.length = arityOf o : Bool) then (.error .arityCircuit, s)
    else gateCtor s o (some l) ii io

end CircuitPy

namespace CircuitPy

instance : DecidableEq (Except AddErr Unit) := fun x y =>
  match x, y with
  | .ok (), .ok () => isTrue rfl
  | .error e, .error f =>
    match decEq e f with
    | isTrue h => isTrue (by rw [h])
    | isFalse h => isFalse (fun hh => h (by injection hh))
  | .ok _, .error _ => isFalse (fun hh => by injection hh)
  | .error _, .ok _ => isFalse (fun hh => by injection hh)

/-! ### Basic lemmas about the state operations -/

theorem length_setG (a : List Gate) (i : Nat) (f : Gate → Gate) :
    (setG a i f).length = a.length := by
  simp [setG]

theorem gd_setG_ne (a : List Gate) (i j : Nat) (f : Gate → Gate) (h : i ≠ j) :
    gd (setG a i f) j = gd a j := by
  simp [gd, setG, List.getD_eq_getElem?_getD, List.getElem?_set_ne h]

theorem gd_setG_self (a : List Gate) (i : Nat) (f : Gate → Gate) (h : i < a.length) :
    gd (setG a i f) i = f (gd a i) := by
  simp [gd, setG, List.getD_eq_getElem?_getD, List.getElem?_set_eq h]

theorem gd_setG_oob (a : List Gate) (i : Nat) (f : Gate → Gate) (h : ¬ i < a.length) :
    setG a i f = a :=
  List.set_eq_of_length_le (by omega)

/-- The `outputs`-designation fold of `addedGate` preserves the arena length. -/
theorem outputsFold_length (ins : List Nat) (n : Nat) (a : List Gate) :
    (ins.foldl
      (fun a j =>
        if (gd a j).outputs.contains n then a
        else setG a j (fun g => { g with outputs := g.outputs ++ [n] })) a).length =
    a.length := by
  induction ins generalizing a with
  | nil => rfl
  | cons x xs ih =>
    simp only [List.foldl_cons]
    split
    · exact ih a
    · rw [ih]
      exact length_setG a x _

theorem addedGate_arena_length (s : CState) (o : Op) (ins : List Nat) (ii io : Bool) :
    (addedGate s o ins ii io).arena.length = s.arena.length + 1 := by
  simp only [addedGate, List.length_append, outputsFold_length, List.length_cons,
    List.length_nil]

/-- The freshly constructed gate sits at arena index `s.arena.length`. -/
theorem addedGate_new (s : CState) (o : Op) (ins : List Nat) (ii io : Bool) :
    gd (addedGate s o ins ii io).arena s.arena.length =
      ⟨o, ins, [], s.gates.length, ii, io, false⟩ := by
  have hlen := outputsFold_length ins s.arena.length s.arena
  unfold addedGate
  unfold gd at hlen ⊢
  dsimp only
  rw [List.getD_append_right _ _ _ _ (by omega)]
  rw [hlen]
  simp

/-! ### Claims about gate addition -/

/-- Is the result of a gate-addition call one of the arity-mismatch errors?
(the two circuit-level arity messages and the constructor-level
`number of inputs must equal operation arity or zero`). -/
def isArityErr : Except AddErr Unit → Bool
  | .error .missingInputs => true
  | .error .arityCircuit => true
  | .error .arityGate => true
  | _ => false

/-- Inputs supplied as actual gate references (the declared parameter type of
`circuit.gate` is `Sequence[gate]`): no `None` placeholders. -/
def liftIns (l : List Nat) : List (Option Nat) := l.map some

theorem liftIns_no_none (l : List Nat) : none ∉ liftIns l := by
  simp [liftIns]

/-- C3: gate addition is transactional: a call that raises any of its errors
leaves the length of the gate collection and the `outputs` list of every
existing gate unchanged (in the source every `raise` precedes every mutation). -/
theorem addGate_transactional (s : CState) (o : Op) (ins : Option (List (Option Nat)))
    (ii io : Bool) (e : AddErr)
    (h : (circuitGate s o ins ii io).1 = .error e) :
    (circuitGate s o ins ii io).2.gates.length = s.gates.length ∧
    ∀ i : Nat, (gd (circuitGate s o ins ii io).2.arena i).outputs = (gd s.arena i).outputs := by
  have hst : (circuitGate s o ins ii io).2 = s := by
    unfold circuitGate gateCtor at h ⊢
    cases ins <;> dsimp only at h ⊢ <;> split_ifs at h ⊢ <;>
      first
      | rfl
      | simp_all
  rw [hst]
  exact ⟨rfl, fun _ => rfl⟩

/-- Witness for C3 at a concrete failing call: `c.gate(op.not_)` on an empty
circuit raises (`non-input circuit gate must have its inputs specified`). -/
theorem addGate_transactional_witness :
    (circuitGate emptyC [1, 0] none false false).1 = .error .missingInputs ∧
    ((circuitGate emptyC [1, 0] none false false).2.gates.length = emptyC.gates.length ∧
     ∀ i : Nat, (gd (circuitGate emptyC [1, 0] none false false).2.arena i).outputs =
       (gd emptyC.arena i).outputs) :=
  ⟨by decide, addGate_transactional emptyC [1, 0] none false false .missingInputs (by decide)⟩

theorem filterMap_id_length {l : List (Option Nat)} (h : none ∉ l) :
    (l.filterMap id).length = l.length := by
  induction l with
  | nil => rfl
  | cons x xs ih =>
    cases x with
    | none => exact absurd (List.mem_cons_self _ _) h
    | some v =>
      show (v :: List.filterMap id xs).length = xs.length + 1
      rw [List.length_cons, ih (fun hm => h (List.mem_cons_of_mem _ hm))]

/-- Characterization of a successful gate-addition call: the final state is
`addedGate` on some `None`-free input list whose length is zero or the
operation's arity, and role flags force the identity operation. -/
theorem circuitGate_ok (s : CState) (o : Op) (ins : Option (List (Option Nat)))
    (ii io : Bool) (h : (circuitGate s o ins ii io).1 = .ok ()) :
    ∃ l : List Nat, (circuitGate s o ins ii io).2 = addedGate s o l ii io ∧
      (l.length = 0 ∨ l.length = arityOf o) ∧
      (ins = none → l = []) ∧
      (ii = true → o = idOp) ∧ (io = true → o = idOp) := by
  unfold circuitGate gateCtor at h ⊢
  cases ins with
  | none =>
    dsimp only at h ⊢
    split_ifs at h ⊢ <;> try (simp at h)
    rename_i hc1 hc2 hc3
    refine ⟨[], rfl, Or.inl rfl, fun _ => rfl, ?_, ?_⟩
    · intro hb
      by_contra hne
      exact hc2 (by simp [hb, hne])
    · intro hb
      by_contra hne
      exact hc3 (by simp [hb, hne])
  | some l =>
    dsimp only at h ⊢
    split_ifs at h ⊢ <;> try (simp at h)
    rename_i hnone hcirc hri hro hreuse hcnt
    have hmem : none ∉ l := fun hm => hnone (List.elem_eq_true_of_mem hm)
    refine ⟨l.filterMap id, rfl, ?_, ?_, ?_, ?_⟩
    · rw [filterMap_id_length hmem]
      by_cases h0 : l.length = 0
      · exact Or.inl h0
      · have himp : ¬ l = [] → l.length = arityOf o := by simpa using hcnt
        exact Or.inr (himp (fun hl => h0 (by simp [hl])))
    · intro hc
      simp at hc
    · intro hb
      by_contra hne
      exact hri (by simp [hb, hne])
    · intro hb
      by_contra hne
      exact hro (by simp [hb, hne])

/-- C6: with `is_input = false`, a gate-addition call fails with an
arity-mismatch error exactly when the inputs argument is absent while the
operation's arity is positive, or the inputs argument is present (a sequence
of gates, per the parameter type of `circuit.gate`) with length different from
the arity; otherwise no arity error is raised. -/
theorem addGate_arity_err_iff (s : CState) (o : Op) (ins : Option (List Nat)) (io : Bool) :
    isArityErr (circuitGate s o (ins.map liftIns) false io).1 = true ↔
      ((ins = none ∧ 0 < arityOf o) ∨
       (∃ l, ins = some l ∧ l.length ≠ arityOf o)) := by
  cases ins with
  | none =>
    show isArityErr (circuitGate s o none false io).1 = true ↔ _
    unfold circuitGate
    dsimp only
    by_cases hpos : 0 < arityOf o
    · rw [if_pos (by simpa using hpos)]
      simp [isArityErr, hpos]
    · rw [if_neg (fun hC => hpos (by simpa using hC))]
      unfold gateCtor
      constructor
      · intro h
        split_ifs at h <;> simp_all [isArityErr]
      · rintro (⟨-, hp⟩ | ⟨l, hl, -⟩)
        · exact absurd hp hpos
        · exact absurd hl (by simp)
  | some l =>
    show isArityErr (circuitGate s o (some (liftIns l)) false io).1 = true ↔ _
    unfold circuitGate
    dsimp only
    rw [if_neg (by simp [liftIns_no_none])]
    by_cases hlen : l.length = arityOf o
    · have hl2 : (liftIns l).length = arityOf o := by simpa [liftIns] using hlen
      rw [if_neg (by simp [hl2])]
      unfold gateCtor
      dsimp only
      constructor
      · intro h
        exfalso
        split_ifs at h <;>
          first
            | (simp [isArityErr] at h; done)
            | (rename_i hcnt; simp [hl2] at hcnt; done)
      · rintro (⟨hl, -⟩ | ⟨l', hl', hll⟩)
        · exact absurd hl (by simp)
        · have : l' = l := by injection hl' with h'; exact h'.symm
          subst this
          exact absurd hlen hll
    · have hl2 : ¬ (liftIns l).length = arityOf o := by simpa [liftIns] using hlen
      rw [if_pos (by simp [hl2])]
      simp [isArityErr, hlen]

/-- C9: a circuit-level gate-addition call whose inputs sequence contains a
`None` placeholder raises `ValueError` (`circuit gate inputs must be
explicitly identified gates`) and appends no gate to the collection. -/
theorem addGate_none_rejected (s : CState) (o : Op) (l : List (Option Nat)) (ii io : Bool)
    (h : none ∈ l) :
    (circuitGate s o (some l) ii io).1 = .error .noneInput ∧
    (circuitGate s o (some l) ii io).2.gates = s.gates := by
  unfold circuitGate
  dsimp only
  rw [if_pos (List.elem_eq_true_of_mem h)]
  exact ⟨rfl, rfl⟩

/-- Witness for C9: adding `c.gate(op.and_, [g0, None])` to a one-gate circuit
fails with the placeholder error and leaves the collection unchanged. -/
theorem addGate_none_rejected_witness :
    (circuitGate ⟨[⟨idOp, [], [], 0, true, false, false⟩], [0]⟩
        [0, 0, 0, 1] (some [some 0, none]) false false).1 = .error .noneInput ∧
    (circuitGate ⟨[⟨idOp, [], [], 0, true, false, false⟩], [0]⟩
        [0, 0, 0, 1] (some [some 0, none]) false false).2.gates =
      (⟨[⟨idOp, [], [], 0, true, false, false⟩], [0]⟩ : CState).gates :=
  addGate_none_rejected _ _ _ false false (by decide)

/-- A one-gate circuit holding a single input gate, used as a concrete state. -/
def oneInputC : CState := ⟨[⟨idOp, [], [], 0, true, false, false⟩], [0]⟩

/-- C8 counterexample: `c.gate(op.id_, [g0], is_input=True)` is accepted by the
code (the constructor's check `len(inputs) in (0, operation.arity())` passes
because the identity arity is 1), producing an input gate whose `inputs` list
is non-empty — contradicting the claim that such a call is rejected. -/
theorem inputGate_with_inputs_accepted :
    (circuitGate oneInputC idOp (some [some 0]) true false).1 = .ok () ∧
    (gd (circuitGate oneInputC idOp (some [some 0]) true false).2.arena 1).is_input = true ∧
    (gd (circuitGate oneInputC idOp (some [some 0]) true false).2.arena 1).inputs = [0] := by
  decide

/-- C8 (amended): a gate added with `is_input = true` has an `inputs` list of
length 0 or 1 (the identity arity); in particular, when the inputs argument is
omitted the constructed input gate has no inputs.  Construction does *not*
reject a non-empty (one-element) inputs sequence for an input gate. -/
theorem inputGate_inputs_short (s : CState) (o : Op) (ins : Option (List (Option Nat)))
    (io : Bool) (h : (circuitGate s o ins true io).1 = .ok ()) :
    ((gd (circuitGate s o ins true io).2.arena s.arena.length).inputs.length = 0 ∨
     (gd (circuitGate s o ins true io).2.arena s.arena.length).inputs.length = 1) ∧
    (ins = none → (gd (circuitGate s o ins true io).2.arena s.arena.length).inputs = []) := by
  obtain ⟨l, hst, hlen, hnil, hid, -⟩ := circuitGate_ok s o ins true io h
  rw [hst, addedGate_new]
  have ho : o = idOp := hid rfl
  constructor
  · rcases hlen with h0 | h1
    · exact Or.inl h0
    · right
      rw [ho] at h1
      simpa using h1
  · intro hc
    simp [hnil hc]

/-- Witness for C8 (amended) at a concrete successful call: an input gate added
with no inputs argument to the empty circuit gets an empty `inputs` list. -/
theorem inputGate_inputs_short_witness :
    (circuitGate emptyC idOp none true false).1 = .ok () ∧
    (((gd (circuitGate emptyC idOp none true false).2.arena emptyC.arena.length).inputs.length = 0 ∨
      (gd (circuitGate emptyC idOp none true false).2.arena emptyC.arena.length).inputs.length = 1) ∧
     (none = (none : Option (List (Option Nat))) →
      (gd (circuitGate emptyC idOp none true false).2.arena emptyC.arena.length).inputs = [])) :=
  ⟨by decide, inputGate_inputs_short emptyC idOp none false (by decide)⟩

/-! ### Reachability marking (`gates.mark`) -/

/-- `gates.mark` with explicit fuel: if the gate is unmarked, mark it and
recursively mark each gate in its `inputs` list, in order.  In the source the
recursion is unbounded and terminates by acyclicity; in a collection where
every gate's inputs have strictly smaller arena indices, fuel `i + 1` is
enough to mark everything reachable from gate `i`. -/
def markF : Nat → List Gate → Nat → List Gate
  | 0, a, _ => a
  | fuel + 1, a, i =>
    if (gd a i).is_marked then a
    else (gd a i).inputs.foldl (fun b j => markF fuel b j)
      (setG a i (fun g => { g with is_marked := true }))

/-- `gates.mark(g)` for gate `i` of arena `a`. -/
def mark (a : List Gate) (i : Nat) : List Gate := markF (i + 1) a i

/-- Backward reachability along `inputs` edges, including the gate itself. -/
inductive Reach (a : List Gate) : Nat → Nat → Prop
  | refl (i : Nat) : Reach a i i
  | step {i j k : Nat} (hj : j ∈ (gd a i).inputs) (hr : Reach a j k) : Reach a i k

/-- Every gate's inputs are strictly earlier gates (true of every collection
built through the library interface, since inputs must already exist). -/
def DecInputs (a : List Gate) : Prop :=
  ∀ i, i < a.length → ∀ j ∈ (gd a i).inputs, j < i

instance (a : List Gate) : Decidable (DecInputs a) := by
  unfold DecInputs
  infer_instance

theorem gd_oob (a : List Gate) (i : Nat) (h : ¬ i < a.length) : gd a i = default := by
  unfold gd
  rw [List.getD_eq_getElem?_getD, List.getElem?_eq_none (by omega)]
  rfl

theorem decInputs_all {a : List Gate} (h : DecInputs a) :
    ∀ i, ∀ j ∈ (gd a i).inputs, j < i := by
  intro i
  by_cases hi : i < a.length
  · exact h i hi
  · rw [gd_oob a i hi]
    intro j hj
    simp [default] at hj

/-- All fields except the transient mark. -/
def sameShape (g h : Gate) : Prop :=
  g.operation = h.operation ∧ g.inputs = h.inputs ∧ g.outputs = h.outputs ∧
  g.index = h.index ∧ g.is_input = h.is_input ∧ g.is_output = h.is_output

theorem sameShape_refl (g : Gate) : sameShape g g :=
  ⟨rfl, rfl, rfl, rfl, rfl, rfl⟩

theorem sameShape_trans {g h k : Gate} (h1 : sameShape g h) (h2 : sameShape h k) :
    sameShape g k := by
  obtain ⟨a1, a2, a3, a4, a5, a6⟩ := h1
  obtain ⟨b1, b2, b3, b4, b5, b6⟩ := h2
  exact ⟨a1.trans b1, a2.trans b2, a3.trans b3, a4.trans b4, a5.trans b5, a6.trans b6⟩

theorem gd_setMark_shape (a : List Gate) (i j : Nat) :
    sameShape (gd (setG a i (fun g => { g with is_marked := true })) j) (gd a j) := by
  by_cases hlt : i < a.length
  · by_cases hij : i = j
    · subst hij
      rw [gd_setG_self a i _ hlt]
      exact ⟨rfl, rfl, rfl, rfl, rfl, rfl⟩
    · rw [gd_setG_ne a i j _ hij]
      exact sameShape_refl _
  · rw [gd_setG_oob a i _ hlt]
    exact sameShape_refl _

theorem markF_shape (f : Nat) : ∀ (a : List Gate) (i : Nat),
    (markF f a i).length = a.length ∧ ∀ j, sameShape (gd (markF f a i) j) (gd a j) := by
  induction f with
  | zero => exact fun a i => ⟨rfl, fun j => sameShape_refl _⟩
  | succ f ih =>
    intro a i
    unfold markF
    split
    · exact ⟨rfl, fun j => sameShape_refl _⟩
    · have hfold : ∀ (js : List Nat) (b : List Gate),
          ((js.foldl (fun c j => markF f c j) b).length = b.length ∧
           ∀ j, sameShape (gd (js.foldl (fun c j => markF f c j) b) j) (gd b j)) := by
        intro js
        induction js with
        | nil => exact fun b => ⟨rfl, fun j => sameShape_refl _⟩
        | cons x xs ihx =>
          intro b
          rw [List.foldl_cons]
          refine ⟨(ihx (markF f b x)).1.trans (ih b x).1, fun j => ?_⟩
          exact sameShape_trans ((ihx (markF f b x)).2 j) ((ih b x).2 j)
      refine ⟨(hfold _ _).1.trans (length_setG a i _), fun j => ?_⟩
      exact sameShape_trans ((hfold _ _).2 j) (gd_setMark_shape a i j)

theorem markF_length (f : Nat) (a : List Gate) (i : Nat) :
    (markF f a i).length = a.length := (markF_shape f a i).1

theorem markF_inputs (f : Nat) (a : List Gate) (i j : Nat) :
    (gd (markF f a i) j).inputs = (gd a j).inputs := ((markF_shape f a i).2 j).2.1

/-! Reachability lemmas -/

theorem Reach_congr {a b : List Gate} (hg : ∀ x, (gd a x).inputs = (gd b x).inputs)
    {i k : Nat} (h : Reach a i k) : Reach b i k := by
  induction h with
  | refl i => exact Reach.refl i
  | step hj _ ih => exact Reach.step (by rw [← hg]; exact hj) ih

theorem Reach_trans {a : List Gate} {i j k : Nat} (h1 : Reach a i j) (h2 : Reach a j k) :
    Reach a i k := by
  induction h1 with
  | refl _ => exact h2
  | step hj _ ih => exact Reach.step hj (ih h2)

theorem Reach_to_input {a : List Gate} {i j x : Nat} (h : Reach a i j)
    (hx : x ∈ (gd a j).inputs) : Reach a i x :=
  Reach_trans h (Reach.step hx (Reach.refl x))

theorem Reach_le {a : List Gate} (hdec : DecInputs a) {i k : Nat} (h : Reach a i k) :
    k ≤ i := by
  induction h with
  | refl _ => exact le_refl _
  | step hj _ ih =>
    have := decInputs_all hdec _ _ hj
    omega

/-- Marked gates whose index is below `n` have all their inputs marked. -/
def ClosedBelow (a : List Gate) (n : Nat) : Prop :=
  ∀ i, i < n → (gd a i).is_marked = true → ∀ j ∈ (gd a i).inputs, (gd a j).is_marked = true

theorem ClosedBelow_mono {a : List Gate} {m n : Nat} (h : m ≤ n) (hc : ClosedBelow a n) :
    ClosedBelow a m := fun i hi => hc i (by omega)

theorem reach_marked {a : List Gate} (hdec : DecInputs a) {i k : Nat}
    (h : Reach a i k) (hcl : ClosedBelow a (i + 1)) (hm : (gd a i).is_marked = true) :
    (gd a k).is_marked = true := by
  induction h with
  | refl _ => exact hm
  | step hj hr ih =>
    rename_i i' j' k'
    have hji : j' < i' := decInputs_all hdec _ _ hj
    exact ih (ClosedBelow_mono (by omega) hcl) (hcl i' (by omega) hm _ hj)

/-- Characterization of one `mark` call: starting from a state whose marked
set is closed under `inputs` below the root, the call marks exactly the
reachable set in addition. -/
theorem markF_marks (i : Nat) : ∀ (f : Nat), i < f → ∀ (a : List Gate),
    DecInputs a → i < a.length → ClosedBelow a (i + 1) →
    ∀ k, (gd (markF f a i) k).is_marked = true ↔
      ((gd a k).is_marked = true ∨ Reach a i k) := by
  induction i using Nat.strong_induction_on with
  | _ i IH =>
    intro f hf a hdec hlen hcl k
    match f, hf with
    | f + 1, _ =>
      unfold markF
      split
      · rename_i hm
        constructor
        · exact fun h => Or.inl h
        · rintro (h | h)
          · exact h
          · exact reach_marked hdec h hcl hm
      · rename_i hm
        set a' := setG a i (fun g => { g with is_marked := true }) with ha'
        have hlen' : a'.length = a.length := length_setG a i _
        have hshape' : ∀ j, sameShape (gd a' j) (gd a j) := fun j => gd_setMark_shape a i j
        have hgraph' : ∀ x, (gd a' x).inputs = (gd a x).inputs := fun x => (hshape' x).2.1
        have hmk' : ∀ j, (gd a' j).is_marked = true ↔ (j = i ∨ (gd a j).is_marked = true) := by
          intro j
          by_cases hij : i = j
          · subst hij
            rw [gd_setG_self a i _ hlen]
            simp
          · rw [gd_setG_ne a i j _ hij]
            constructor
            · exact fun h => Or.inr h
            · rintro (h | h)
              · exact absurd h.symm hij
              · exact h
        have hdec' : DecInputs a' := by
          intro x hx j hj
          rw [hgraph' x] at hj
          exact decInputs_all hdec x _ hj
        have hcl' : ClosedBelow a' i := by
          intro x hx hmx j hj
          rw [hgraph' x] at hj
          have hxi : ¬ x = i := by omega
          rcases (hmk' x).1 hmx with h | h
          · exact absurd h hxi
          · have hjm := hcl x (by omega) h _ hj
            have hji : j < x := decInputs_all hdec x _ hj
            exact (hmk' j).2 (Or.inr hjm)
        have hfold : ∀ (js : List Nat), (∀ j ∈ js, j < i) → ∀ (b : List Gate),
            DecInputs b → b.length = a.length → ClosedBelow b i →
            (∀ x, (gd b x).inputs = (gd a x).inputs) →
            ∀ k, (gd (js.foldl (fun c j => markF f c j) b) k).is_marked = true ↔
              ((gd b k).is_marked = true ∨ ∃ j ∈ js, Reach a j k) := by
          intro js
          induction js with
          | nil =>
            intro _ b _ _ _ _ k
            simp
          | cons x xs ihx =>
            intro hjs b hdecb hlenb hclb hgraphb k
            rw [List.foldl_cons]
            have hxi : x < i := hjs x (List.mem_cons_self _ _)
            have hxf : x < f := by omega
            have hxb : x < b.length := by omega
            have hchar := IH x hxi f hxf b hdecb hxb
              (ClosedBelow_mono (by omega) hclb)
            set c := markF f b x with hc
            have hlenc : c.length = a.length := by rw [hc, markF_length, hlenb]
            have hgraphc : ∀ y, (gd c y).inputs = (gd a y).inputs := by
              intro y
              rw [hc, markF_inputs, hgraphb]
            have hdecc : DecInputs c := by
              intro y hy j hj
              rw [hgraphc y] at hj
              exact decInputs_all hdec y _ hj
            have hcharc : ∀ y, (gd c y).is_marked = true ↔
                ((gd b y).is_marked = true ∨ Reach a x y) := by
              intro y
              rw [hchar y]
              constructor
              · rintro (h | h)
                · exact Or.inl h
                · exact Or.inr (Reach_congr (fun z => (hgraphb z)) h)
              · rintro (h | h)
                · exact Or.inl h
                · exact Or.inr (Reach_congr (fun z => (hgraphb z).symm) h)
            have hclc : ClosedBelow c i := by
              intro y hy hmy j hj
              rw [hgraphc y] at hj
              rcases (hcharc y).1 hmy with h | h
              · have := hclb y hy h j (by rw [hgraphb y]; exact hj)
                exact (hcharc j).2 (Or.inl this)
              · exact (hcharc j).2 (Or.inr (Reach_to_input h hj))
            have hrest := ihx (fun j hj => hjs j (List.mem_cons_of_mem _ hj)) c
              hdecc hlenc hclc hgraphc k
            rw [hrest]
            constructor
            · rintro (h | ⟨j, hjm, hr⟩)
              · rcases (hcharc k).1 h with h' | h'
                · exact Or.inl h'
                · exact Or.inr ⟨x, List.mem_cons_self _ _, h'⟩
              · exact Or.inr ⟨j, List.mem_cons_of_mem _ hjm, hr⟩
            · rintro (h | ⟨j, hjm, hr⟩)
              · exact Or.inl ((hcharc k).2 (Or.inl h))
              · rcases List.mem_cons.mp hjm with hjx | hjxs
                · subst hjx
                  exact Or.inl ((hcharc k).2 (Or.inr hr))
                · exact Or.inr ⟨j, hjxs, hr⟩
        have hres := hfold (gd a i).inputs (fun j hj => decInputs_all hdec i j hj) a'
          hdec' hlen' hcl' hgraph' k
        rw [hres]
        constructor
        · rintro (h | ⟨j, hjm, hr⟩)
          · rcases (hmk' k).1 h with h' | h'
            · subst h'
              exact Or.inr (Reach.refl k)
            · exact Or.inl h'
          · exact Or.inr (Reach.step hjm hr)
        · rintro (h | h)
          · exact Or.inl ((hmk' k).2 (Or.inr h))
          · rcases h with _ | ⟨hj, hr⟩
            · exact Or.inl ((hmk' _).2 (Or.inl rfl))
            · exact Or.inr ⟨_, hj, hr⟩

/-- C5: after `mark(g)` on a collection whose marks have been reset, the
gates with `is_marked = true` are exactly those reachable from `g` (itself
included) by following `inputs` edges, and no other gate is marked. -/
theorem mark_correct (a : List Gate) (g : Nat)
    (hdec : DecInputs a) (hg : g < a.length)
    (hclean : ∀ i, i < a.length → (gd a i).is_marked = false) :
    ∀ k, (gd (mark a g) k).is_marked = true ↔ Reach a g k := by
  intro k
  have hclean' : ∀ i, (gd a i).is_marked = false := by
    intro i
    by_cases hi : i < a.length
    · exact hclean i hi
    · rw [gd_oob a i hi]
      rfl
  have hcl : ClosedBelow a (g + 1) := by
    intro i _ hm
    rw [hclean' i] at hm
    exact absurd hm (by simp)
  rw [mark, markF_marks g (g + 1) (by omega) a hdec hg hcl k, hclean' k]
  simp

/-- Witness for C5 on the concrete four-gate AND circuit marked from its
output gate: the hypotheses hold and the characterization follows. -/
theorem mark_correct_witness :
    (DecInputs [⟨idOp, [], [1 + 1], 0, true, false, false⟩,
                ⟨idOp, [], [2], 1, true, false, false⟩,
                ⟨[0, 0, 0, 1], [0, 1], [3], 2, false, false, false⟩,
                ⟨idOp, [2], [], 3, false, true, false⟩] ∧
     3 < ([⟨idOp, [], [1 + 1], 0, true, false, false⟩,
           ⟨idOp, [], [2], 1, true, false, false⟩,
           ⟨[0, 0, 0, 1], [0, 1], [3], 2, false, false, false⟩,
           ⟨idOp, [2], [], 3, false, true, false⟩] : List Gate).length) ∧
    ∀ k, (gd (mark [⟨idOp, [], [1 + 1], 0, true, false, false⟩,
                    ⟨idOp, [], [2], 1, true, false, false⟩,
                    ⟨[0, 0, 0, 1], [0, 1], [3], 2, false, false, false⟩,
                    ⟨idOp, [2], [], 3, false, true, false⟩] 3) k).is_marked = true ↔
      Reach [⟨idOp, [], [1 + 1], 0, true, false, false⟩,
             ⟨idOp, [], [2], 1, true, false, false⟩,
             ⟨[0, 0, 0, 1], [0, 1], [3], 2, false, false, false⟩,
             ⟨idOp, [2], [], 3, false, true, false⟩] 3 k :=
  ⟨⟨by decide, by decide⟩,
    mark_correct _ 3 (by decide) (by decide) (by decide)⟩

/-! ### Prune and stable topological sort
(`circuit.prune_and_topological_sort_stable`, rich variant lines 1078-1144) -/

/-- Selection of the effective output gates (`len(g.outputs) == 0 and
g.operation == op.id_ and g.is_output`). -/
def effOutB (a : List Gate) (i : Nat) : Bool :=
  (gd a i).outputs.isEmpty && ((gd a i).operation = idOp : Bool) && (gd a i).is_output

/-- Selection of the input block (`len(g.inputs) == 0 and g.is_input`). -/
def inSelB (a : List Gate) (i : Nat) : Bool :=
  (gd a i).inputs.isEmpty && (gd a i).is_input

/-- Selection of the surviving interior block (`(len(g.inputs) > 0 or
g.operation in logical.nullary) and len(g.outputs) > 0 and not g.is_input and
not g.is_output and g.is_marked`). -/
def intSelB (a : List Gate) (i : Nat) : Bool :=
  (!(gd a i).inputs.isEmpty || nullaryOps.contains (gd a i).operation) &&
  !(gd a i).outputs.isEmpty && !(gd a i).is_input && !(gd a i).is_output &&
  (gd a i).is_marked

/-- One of the two `for (index, g) in enumerate(self.gates)` block loops:
walks the collection with its running position `p`, and for each selected
gate records `index_old_to_new[p] = len(gates_)` (dictionary writes are
modelled by prepending, so that `List.lookup`'s first match is the latest
write) and appends the gate to the new list. -/
def blockGo (sel : Nat → Bool) : List Nat → Nat → List (Nat × Nat) → List Nat →
    List (Nat × Nat) × List Nat
  | [], _, d, acc => (d, acc)
  | i :: rest, p, d, acc =>
    if sel i then blockGo sel rest (p + 1) ((p, acc.length) :: d) (acc ++ [i])
    else blockGo sel rest (p + 1) d acc

/-- The output-block loop: for each effective output gate, clear its
`outputs`, record `index_old_to_new[g.index] = len(gates_)` and append it. -/
def outGo : List Nat → List Gate × List (Nat × Nat) × List Nat →
    List Gate × List (Nat × Nat) × List Nat
  | [], st => st
  | i :: rest, (a, d, acc) =>
    let a' := setG a i (fun g => { g with outputs := [] })
    outGo rest (a', ((gd a' i).index, acc.length) :: d, acc ++ [i])

/-- The final remap loop `for g in gates_: g.index = index_old_to_new[g.index]`;
a missing dictionary key is Python's `KeyError`, modelled as `none`. -/
def remapGo (d : List (Nat × Nat)) : List Gate → List Nat → Option (List Gate)
  | a, [] => some a
  | a, i :: rest =>
    match List.lookup (gd a i).index d with
    | none => none
    | some v => remapGo d (setG a i (fun g => { g with index := v })) rest

/-- `for g in self.gates: g.is_marked = False`. -/
def resetArena (s : CState) : List Gate :=
  s.gates.foldl (fun a i => setG a i (fun g => { g with is_marked := false })) s.arena

/-- The `gate_output` list collected at the start of the prune. -/
def outIdsOf (s : CState) : List Nat := s.gates.filter (fun i => effOutB s.arena i)

/-- The arena after the reset loop and `for g in gate_output: gates.mark(g)`. -/
def arenaMarked (s : CState) : List Gate :=
  (outIdsOf s).foldl (fun a i => markF (i + 1) a i) (resetArena s)

/-- `circuit.prune_and_topological_sort_stable`: collect the effective output
gates, reset and re-run reachability marking, rebuild the collection as
input block / surviving interior block / output block while recording the
old-position-to-new-position dictionary, clear the output gates' `outputs`,
and remap every surviving gate's `index`.  Returns `none` when the Python
code would raise `KeyError` in the remap loop.  The intermediate states of
the loops are split into `pruneSt2` (dictionary and new list after the two
`enumerate` block loops) and `pruneSt3` (after the output-block loop). -/
def pruneSt2 (s : CState) : List (Nat × Nat) × List Nat :=
  blockGo (fun i => intSelB (arenaMarked s) i) s.gates 0
    (blockGo (fun i => inSelB (arenaMarked s) i) s.gates 0 [] []).1
    (blockGo (fun i => inSelB (arenaMarked s) i) s.gates 0 [] []).2

/-- State after the output-block loop (arena, dictionary, new gate list). -/
def pruneSt3 (s : CState) : List Gate × List (Nat × Nat) × List Nat :=
  outGo (outIdsOf s) (arenaMarked s, (pruneSt2 s).1, (pruneSt2 s).2)

def prune (s : CState) : Option CState :=
  match remapGo (pruneSt3 s).2.1 (pruneSt3 s).1 (pruneSt3 s).2.2 with
  | none => none
  | some a4 => some ⟨a4, (pruneSt3 s).2.2⟩

/-- The input block: all gates of the collection with `is_input` and no
inputs, in original order. -/
def inBlockOf (s : CState) : List Nat :=
  s.gates.filter (fun i => inSelB (arenaMarked s) i)

/-- The surviving interior block, in original order. -/
def intBlockOf (s : CState) : List Nat :=
  s.gates.filter (fun i => intSelB (arenaMarked s) i)

/-- The rebuilt gate collection. -/
def newCollOf (s : CState) : List Nat :=
  inBlockOf s ++ intBlockOf s ++ outIdsOf s

/-! ### Frame lemmas for the prune phases -/

/-- All fields except the `index` slot. -/
def sameButIndex (g h : Gate) : Prop :=
  g.operation = h.operation ∧ g.inputs = h.inputs ∧ g.outputs = h.outputs ∧
  g.is_input = h.is_input ∧ g.is_output = h.is_output ∧ g.is_marked = h.is_marked

theorem sameButIndex_refl (g : Gate) : sameButIndex g g :=
  ⟨rfl, rfl, rfl, rfl, rfl, rfl⟩

theorem sameButIndex_trans {g h k : Gate} (h1 : sameButIndex g h) (h2 : sameButIndex h k) :
    sameButIndex g k := by
  obtain ⟨a1, a2, a3, a4, a5, a6⟩ := h1
  obtain ⟨b1, b2, b3, b4, b5, b6⟩ := h2
  exact ⟨a1.trans b1, a2.trans b2, a3.trans b3, a4.trans b4, a5.trans b5, a6.trans b6⟩

theorem setG_id (a : List Gate) (i : Nat) (f : Gate → Gate) (h : f (gd a i) = gd a i) :
    setG a i f = a := by
  by_cases hlt : i < a.length
  · apply List.ext_getElem?
    intro n
    by_cases hin : i = n
    · subst hin
      rw [setG, h, List.getElem?_set_eq hlt]
      unfold gd
      rw [List.getD_eq_getElem?_getD, List.getElem?_eq_getElem hlt]
      rfl
    · rw [setG, List.getElem?_set_ne hin]
  · exact gd_setG_oob a i f hlt

/-- The reset loop: marks of collection members are cleared, everything else
is untouched. -/
theorem resetFold_spec (ids : List Nat) : ∀ (a : List Gate),
    ((ids.foldl (fun c j => setG c j (fun g => { g with is_marked := false })) a).length
       = a.length) ∧
    (∀ j, sameShape
      (gd (ids.foldl (fun c j => setG c j (fun g => { g with is_marked := false })) a) j)
      (gd a j)) ∧
    (∀ j ∈ ids, j < a.length →
      (gd (ids.foldl (fun c j => setG c j (fun g => { g with is_marked := false })) a) j).is_marked
        = false) ∧
    (∀ j, j ∉ ids →
      (gd (ids.foldl (fun c j => setG c j (fun g => { g with is_marked := false })) a) j).is_marked
        = (gd a j).is_marked) := by
  induction ids with
  | nil =>
    intro a
    exact ⟨rfl, fun j => sameShape_refl _, fun j hj => absurd hj (List.not_mem_nil j),
      fun j _ => rfl⟩
  | cons x xs ih =>
    intro a
    simp only [List.foldl_cons]
    set a1 := setG a x (fun g => { g with is_marked := false }) with ha1
    have hlen1 : a1.length = a.length := length_setG a x _
    have hshape1 : ∀ j, sameShape (gd a1 j) (gd a j) := by
      intro j
      by_cases hlt : x < a.length
      · by_cases hij : x = j
        · subst hij
          rw [ha1, gd_setG_self a x _ hlt]
          exact ⟨rfl, rfl, rfl, rfl, rfl, rfl⟩
        · rw [ha1, gd_setG_ne a x j _ hij]
          exact sameShape_refl _
      · rw [ha1, gd_setG_oob a x _ hlt]
        exact sameShape_refl _
    obtain ⟨ihl, ihs, ihm, ihn⟩ := ih a1
    refine ⟨ihl.trans hlen1, fun j => sameShape_trans (ihs j) (hshape1 j), ?_, ?_⟩
    · intro j hj hjl
      rcases List.mem_cons.mp hj with hjx | hjxs
      · subst hjx
        by_cases hmem : j ∈ xs
        · exact ihm j hmem (by omega)
        · rw [ihn j hmem, ha1, gd_setG_self a j _ hjl]
      · exact ihm j hjxs (by omega)
    · intro j hj
      have hx : ¬ x = j := fun hc => hj (hc ▸ List.mem_cons_self _ _)
      have hxs : j ∉ xs := fun hc => hj (List.mem_cons_of_mem _ hc)
      rw [ihn j hxs, ha1, gd_setG_ne a x j _ hx]

/-- The marking loop preserves everything except marks. -/
theorem markFold_shape (ids : List Nat) : ∀ (a : List Gate),
    ((ids.foldl (fun c j => markF (j + 1) c j) a).length = a.length) ∧
    (∀ j, sameShape (gd (ids.foldl (fun c j => markF (j + 1) c j) a) j) (gd a j)) := by
  induction ids with
  | nil => exact fun a => ⟨rfl, fun j => sameShape_refl _⟩
  | cons x xs ih =>
    intro a
    simp only [List.foldl_cons]
    obtain ⟨ihl, ihs⟩ := ih (markF (x + 1) a x)
    exact ⟨ihl.trans (markF_length _ a x),
      fun j => sameShape_trans (ihs j) ((markF_shape (x + 1) a x).2 j)⟩

theorem arenaMarked_shape (s : CState) :
    (arenaMarked s).length = s.arena.length ∧
    ∀ j, sameShape (gd (arenaMarked s) j) (gd s.arena j) := by
  unfold arenaMarked resetArena
  obtain ⟨hl2, hs2⟩ := markFold_shape (outIdsOf s)
    (s.gates.foldl (fun a i => setG a i (fun g => { g with is_marked := false })) s.arena)
  obtain ⟨hl1, hs1, -, -⟩ := resetFold_spec s.gates s.arena
  exact ⟨hl2.trans hl1, fun j => sameShape_trans (hs2 j) (hs1 j)⟩

/-- Dictionary entries recorded by the output-block loop: the `index` fields
of the listed gates paired with consecutive new positions. -/
def pairsAt (a : List Gate) : List Nat → Nat → List (Nat × Nat)
  | [], _ => []
  | i :: r, base => ((gd a i).index, base) :: pairsAt a r (base + 1)

/-- When every listed gate already has empty `outputs` (always true of the
effective output gates, by their defining filter), the output-block loop
leaves the arena unchanged. -/
theorem outGo_spec (ids : List Nat) : ∀ (a : List Gate) (d : List (Nat × Nat))
    (acc : List Nat), (∀ i ∈ ids, (gd a i).outputs = []) →
    outGo ids (a, d, acc) = (a, (pairsAt a ids acc.length).reverse ++ d, acc ++ ids) := by
  induction ids with
  | nil =>
    intro a d acc _
    simp [outGo, pairsAt]
  | cons x xs ih =>
    intro a d acc hemp
    have hx : (gd a x).outputs = [] := hemp x (List.mem_cons_self _ _)
    have hid : setG a x (fun g => { g with outputs := [] }) = a := by
      apply setG_id
      rw [← hx]
    show outGo xs _ = _
    rw [hid]
    rw [ih a _ _ (fun i hi => hemp i (List.mem_cons_of_mem _ hi))]
    simp [pairsAt, List.append_assoc]

/-- `remapGo` success preserves every field but `index`. -/
theorem remapGo_pres (d : List (Nat × Nat)) (ids : List Nat) : ∀ (a b : List Gate),
    remapGo d a ids = some b →
    b.length = a.length ∧ ∀ j, sameButIndex (gd b j) (gd a j) := by
  induction ids with
  | nil =>
    intro a b h
    cases h
    exact ⟨rfl, fun j => sameButIndex_refl _⟩
  | cons x xs ih =>
    intro a b h
    unfold remapGo at h
    cases hlk : List.lookup (gd a x).index d with
    | none => rw [hlk] at h; cases h
    | some v =>
      rw [hlk] at h
      obtain ⟨ihl, ihs⟩ := ih _ _ h
      have hset : ∀ j, sameButIndex
          (gd (setG a x (fun g => { g with index := v })) j) (gd a j) := by
        intro j
        by_cases hlt : x < a.length
        · by_cases hij : x = j
          · subst hij
            rw [gd_setG_self a x _ hlt]
            exact ⟨rfl, rfl, rfl, rfl, rfl, rfl⟩
          · rw [gd_setG_ne a x j _ hij]
            exact sameButIndex_refl _
        · rw [gd_setG_oob a x _ hlt]
          exact sameButIndex_refl _
      exact ⟨ihl.trans (length_setG a x _), fun j => sameButIndex_trans (ihs j) (hset j)⟩

theorem outIds_outputs_empty (s : CState) :
    ∀ i ∈ outIdsOf s, (gd (arenaMarked s) i).outputs = [] := by
  intro i hi
  have hmem := List.of_mem_filter hi
  have hempty : (gd s.arena i).outputs.isEmpty = true := by
    unfold effOutB at hmem
    exact (Bool.and_elim_left (Bool.and_elim_left hmem))
  have := ((arenaMarked_shape s).2 i).2.2.1
  rw [this]
  simpa using hempty

/-! ### Dictionary and remap correctness -/

/-- Dictionary entries recorded by one `enumerate` block loop, in selection
order: the running position paired with the new position. -/
def pairs (sel : Nat → Bool) : List Nat → Nat → Nat → List (Nat × Nat)
  | [], _, _ => []
  | i :: rest, p, base =>
    if sel i then (p, base) :: pairs sel rest (p + 1) (base + 1)
    else pairs sel rest (p + 1) base

theorem blockGo_spec (sel : Nat → Bool) (ids : List Nat) : ∀ (p : Nat)
    (d : List (Nat × Nat)) (acc : List Nat),
    blockGo sel ids p d acc =
      ((pairs sel ids p acc.length).reverse ++ d, acc ++ ids.filter sel) := by
  induction ids with
  | nil =>
    intro p d acc
    simp [blockGo, pairs]
  | cons x xs ih =>
    intro p d acc
    by_cases hx : sel x
    · show (if sel x then _ else _) = _
      rw [if_pos hx]
      rw [ih (p + 1) ((p, acc.length) :: d) (acc ++ [x])]
      simp [pairs, hx, List.filter_cons, List.append_assoc]
    · show (if sel x then _ else _) = _
      rw [if_neg hx]
      rw [ih (p + 1) d acc]
      simp [pairs, hx, List.filter_cons]

/-- Soundness of block-loop dictionary entries: every entry pairs the old
position of a selected gate with its position in the filtered list. -/
theorem pairs_mem_sound (sel : Nat → Bool) (ids : List Nat) : ∀ (p base k v : Nat),
    (k, v) ∈ pairs sel ids p base →
    p ≤ k ∧ k - p < ids.length ∧ base ≤ v ∧ v - base < (ids.filter sel).length ∧
      sel (ids.getD (k - p) 0) = true ∧
      (ids.filter sel).getD (v - base) 0 = ids.getD (k - p) 0 := by
  induction ids with
  | nil =>
    intro p base k v h
    simp [pairs] at h
  | cons x xs ih =>
    intro p base k v h
    by_cases hx : sel x
    · rw [pairs, if_pos hx] at h
      rcases List.mem_cons.mp h with h0 | h1
      · have hk : k = p := congrArg Prod.fst h0
        have hv : v = base := congrArg Prod.snd h0
        subst hk
        subst hv
        refine ⟨le_refl _, by simp, le_refl _, ?_, ?_, ?_⟩ <;>
          simp [List.filter_cons, hx]
      · obtain ⟨h1p, h1l, h1b, h1f, h1s, h1e⟩ := ih (p + 1) (base + 1) k v h1
        have hkp : k - p = (k - (p + 1)) + 1 := by omega
        have hvb : v - base = (v - (base + 1)) + 1 := by omega
        refine ⟨by omega, by simp; omega, by omega, ?_, ?_, ?_⟩
        · simp only [List.filter_cons, if_pos hx, List.length_cons]
          omega
        · rw [hkp]
          simpa using h1s
        · rw [hkp, hvb]
          simp only [List.filter_cons, if_pos hx]
          simpa using h1e
    · rw [pairs, if_neg hx] at h
      obtain ⟨h1p, h1l, h1b, h1f, h1s, h1e⟩ := ih (p + 1) base k v h
      have hkp : k - p = (k - (p + 1)) + 1 := by omega
      refine ⟨by omega, by simp; omega, by omega, ?_, ?_, ?_⟩
      · simp only [List.filter_cons, if_neg hx]
        exact h1f
      · rw [hkp]
        simpa using h1s
      · rw [hkp]
        simp only [List.filter_cons, if_neg hx]
        simpa using h1e

/-- Completeness of block-loop dictionary entries: the `t`-th selected gate
produces an entry mapping its old position to `base + t`. -/
theorem pairs_mem_complete (sel : Nat → Bool) (ids : List Nat) : ∀ (p base t : Nat),
    t < (ids.filter sel).length →
    ∃ q, q < ids.length ∧ (p + q, base + t) ∈ pairs sel ids p base ∧
      ids.getD q 0 = (ids.filter sel).getD t 0 := by
  induction ids with
  | nil =>
    intro p base t ht
    simp [List.filter_nil] at ht
  | cons x xs ih =>
    intro p base t ht
    by_cases hx : sel x
    · rcases t with _ | t'
      · refine ⟨0, by simp, ?_, ?_⟩
        · rw [pairs, if_pos hx]
          simp
        · simp [List.filter_cons, hx]
      · have ht' : t' < (xs.filter sel).length := by
          have := ht
          simp only [List.filter_cons, if_pos hx, List.length_cons] at this
          omega
        obtain ⟨q, hq, hmem, heq⟩ := ih (p + 1) (base + 1) t' ht'
        refine ⟨q + 1, by simp; omega, ?_, ?_⟩
        · rw [pairs, if_pos hx]
          have : p + (q + 1) = (p + 1) + q := by omega
          rw [this]
          have : base + (t' + 1) = (base + 1) + t' := by omega
          rw [this]
          exact List.mem_cons_of_mem _ hmem
        · simp only [List.filter_cons, if_pos hx]
          simpa using heq
    · have ht' : t < (xs.filter sel).length := by
        have := ht
        simp only [List.filter_cons, if_neg hx] at this
        exact this
      obtain ⟨q, hq, hmem, heq⟩ := ih (p + 1) base t ht'
      refine ⟨q + 1, by simp; omega, ?_, ?_⟩
      · rw [pairs, if_neg hx]
        have : p + (q + 1) = (p + 1) + q := by omega
        rw [this]
        exact hmem
      · simp only [List.filter_cons, if_neg hx]
        simpa using heq

theorem pairsAt_mem_sound (a : List Gate) (ids : List Nat) : ∀ (base k v : Nat),
    (k, v) ∈ pairsAt a ids base →
    base ≤ v ∧ v - base < ids.length ∧ k = (gd a (ids.getD (v - base) 0)).index := by
  induction ids with
  | nil =>
    intro base k v h
    simp [pairsAt] at h
  | cons x xs ih =>
    intro base k v h
    rw [pairsAt] at h
    rcases List.mem_cons.mp h with h0 | h1
    · have hk : k = (gd a x).index := congrArg Prod.fst h0
      have hv : v = base := congrArg Prod.snd h0
      subst hk
      subst hv
      exact ⟨le_refl _, by simp, by simp⟩
    · obtain ⟨h1b, h1l, h1e⟩ := ih (base + 1) k v h1
      have hvb : v - base = (v - (base + 1)) + 1 := by omega
      refine ⟨by omega, by simp; omega, ?_⟩
      rw [hvb]
      simpa using h1e

theorem pairsAt_mem_complete (a : List Gate) (ids : List Nat) : ∀ (base t : Nat),
    t < ids.length →
    ((gd a (ids.getD t 0)).index, base + t) ∈ pairsAt a ids base := by
  induction ids with
  | nil =>
    intro base t ht
    simp at ht
  | cons x xs ih =>
    intro base t ht
    rcases t with _ | t'
    · rw [pairsAt]
      simp
    · rw [pairsAt]
      have : base + (t' + 1) = (base + 1) + t' := by omega
      rw [this]
      exact List.mem_cons_of_mem _ (by simpa using ih (base + 1) t' (by simpa using ht))

/-- First-match association lookup returns the unique value of a key. -/
theorem lookup_unique {d : List (Nat × Nat)} {k v : Nat}
    (hmem : (k, v) ∈ d) (huniq : ∀ p ∈ d, p.1 = k → p.2 = v) :
    List.lookup k d = some v := by
  induction d with
  | nil => simp at hmem
  | cons x xs ih =>
    rcases List.mem_cons.mp hmem with h0 | h1
    · subst h0
      exact List.lookup_cons_self
    · by_cases hk : x.1 = k
      · have := huniq x (List.mem_cons_self _ _) hk
        cases x with
        | mk k' v' =>
          simp only at hk this
          subst hk
          subst this
          exact List.lookup_cons_self
      · cases x with
        | mk k' v' =>
          simp only at hk
          have hb : (k == k') = false := by
            simp only [beq_eq_false_iff_ne, ne_eq]
            exact fun hc => hk hc.symm
          simp only [List.lookup, hb]
          exact ih h1 (fun p hp => huniq p (List.mem_cons_of_mem _ hp))

/-- Correctness of the remap loop when each listed gate's current `index`
looks up to its own position (offset by `start`). -/
theorem remapGo_ok (d : List (Nat × Nat)) : ∀ (ids : List Nat) (start : Nat)
    (a : List Gate), ids.Nodup → (∀ j ∈ ids, j < a.length) →
    (∀ r, r < ids.length → List.lookup (gd a (ids.getD r 0)).index d = some (start + r)) →
    ∃ b, remapGo d a ids = some b ∧
      (∀ r, r < ids.length → (gd b (ids.getD r 0)).index = start + r) ∧
      (∀ j, j ∉ ids → gd b j = gd a j) := by
  intro ids
  induction ids with
  | nil =>
    intro start a _ _ _
    exact ⟨a, rfl, fun r hr => absurd hr (by simp), fun j _ => rfl⟩
  | cons x xs ih =>
    intro start a hnd hval hlk
    have hx : List.lookup (gd a x).index d = some start := by
      have := hlk 0 (by simp)
      simpa using this
    set a' := setG a x (fun g => { g with index := start }) with ha'
    have hxlen : x < a.length := hval x (List.mem_cons_self _ _)
    have hxs : x ∉ xs := (List.nodup_cons.mp hnd).1
    have hrest : ∀ r, r < xs.length →
        List.lookup (gd a' (xs.getD r 0)).index d = some (start + 1 + r) := by
      intro r hr
      have hmemr : xs.getD r 0 ∈ xs := by
        rw [List.getD_eq_getElem xs 0 hr]
        exact List.getElem_mem hr
      have hne : ¬ x = xs.getD r 0 := fun hc => hxs (hc ▸ hmemr)
      rw [ha', gd_setG_ne a x _ _ hne]
      have := hlk (r + 1) (by simp; omega)
      simpa [Nat.add_assoc, Nat.add_comm 1 r] using this
    obtain ⟨b, hb, hbi, hbu⟩ := ih (start + 1) a' (List.nodup_cons.mp hnd).2
      (fun j hj => by rw [ha', length_setG]; exact hval j (List.mem_cons_of_mem _ hj))
      hrest
    refine ⟨b, ?_, ?_, ?_⟩
    · show remapGo d a (x :: xs) = some b
      rw [remapGo, hx]
      exact hb
    · intro r hr
      rcases r with _ | r'
      · have : gd b x = gd a' x := hbu x hxs
        simp only [List.getD_cons_zero]
        rw [this, ha', gd_setG_self a x _ hxlen]
        simp
      · have hr' : r' < xs.length := by simpa using hr
        have := hbi r' hr'
        simpa [Nat.add_assoc, Nat.add_comm 1 r'] using this
    · intro j hj
      have hjx : ¬ x = j := fun hc => hj (hc ▸ List.mem_cons_self _ _)
      have hjxs : j ∉ xs := fun hc => hj (List.mem_cons_of_mem _ hc)
      rw [hbu j hjxs, ha', gd_setG_ne a x j _ hjx]

/-! ### Well-formedness of a circuit's gate list -/

/-- Collection well-formedness maintained by the library: every listed gate
exists in the arena, and each gate's `index` field equals its position in the
collection (`gates.gate` assigns `g.index = len(self)` at append time, and the
prune reassigns indices to positions). -/
def CollWF (s : CState) : Prop :=
  (∀ i ∈ s.gates, i < s.arena.length) ∧
  (∀ q, q < s.gates.length → (gd s.arena (s.gates.getD q 0)).index = q)

instance (s : CState) : Decidable (CollWF s) := by
  unfold CollWF
  infer_instance

/-- No gate of the collection is flagged both input and output. -/
def NoDual (s : CState) : Prop :=
  ∀ i ∈ s.gates, ¬((gd s.arena i).is_input = true ∧ (gd s.arena i).is_output = true)

instance (s : CState) : Decidable (NoDual s) := by
  unfold NoDual
  infer_instance

theorem nodup_of_index (l : List Nat) (f : Nat → Nat)
    (hf : ∀ q, q < l.length → f (l.getD q 0) = q) : l.Nodup := by
  rw [List.nodup_iff_injective_get]
  intro ⟨i, hi⟩ ⟨j, hj⟩ he
  simp only [List.get_eq_getElem] at he
  have h1 : f (l.getD i 0) = i := hf i hi
  have h2 : f (l.getD j 0) = j := hf j hj
  rw [List.getD_eq_getElem l 0 hi] at h1
  rw [List.getD_eq_getElem l 0 hj] at h2
  rw [he] at h1
  simp [Fin.ext_iff]
  omega

theorem collWF_nodup (s : CState) (hwf : CollWF s) : s.gates.Nodup :=
  nodup_of_index s.gates (fun m => (gd s.arena m).index) hwf.2

theorem nodup_getD_inj {l : List Nat} (h : l.Nodup) {i j : Nat}
    (hi : i < l.length) (hj : j < l.length) (he : l.getD i 0 = l.getD j 0) : i = j := by
  rw [List.getD_eq_getElem l 0 hi, List.getD_eq_getElem l 0 hj] at he
  exact (List.Nodup.getElem_inj_iff h).mp he

/-- `index` fields survive the reset and marking phases. -/
theorem idx_arenaMarked (s : CState) (hwf : CollWF s) :
    ∀ q, q < s.gates.length → (gd (arenaMarked s) (s.gates.getD q 0)).index = q := by
  intro q hq
  rw [((arenaMarked_shape s).2 _).2.2.2.1]
  exact hwf.2 q hq

theorem inSelB_iff (a : List Gate) (i : Nat) :
    inSelB a i = true ↔ (gd a i).inputs = [] ∧ (gd a i).is_input = true := by
  unfold inSelB
  simp [List.isEmpty_iff]

theorem intSelB_iff (a : List Gate) (i : Nat) :
    intSelB a i = true ↔
      (¬(gd a i).inputs = [] ∨ (gd a i).operation ∈ nullaryOps) ∧
      ¬(gd a i).outputs = [] ∧ (gd a i).is_input = false ∧
      (gd a i).is_output = false ∧ (gd a i).is_marked = true := by
  unfold intSelB
  simp [List.isEmpty_iff]
  tauto

theorem effOutB_iff (a : List Gate) (i : Nat) :
    effOutB a i = true ↔
      (gd a i).outputs = [] ∧ (gd a i).operation = idOp ∧ (gd a i).is_output = true := by
  unfold effOutB
  simp [List.isEmpty_iff]
  tauto

/-- Membership in the three blocks. -/
theorem mem_inBlock {s : CState} {i : Nat} (h : i ∈ inBlockOf s) :
    i ∈ s.gates ∧ inSelB (arenaMarked s) i = true :=
  ⟨List.mem_of_mem_filter h, List.of_mem_filter h⟩

theorem mem_intBlock {s : CState} {i : Nat} (h : i ∈ intBlockOf s) :
    i ∈ s.gates ∧ intSelB (arenaMarked s) i = true :=
  ⟨List.mem_of_mem_filter h, List.of_mem_filter h⟩

theorem mem_outIds {s : CState} {i : Nat} (h : i ∈ outIdsOf s) :
    i ∈ s.gates ∧ effOutB s.arena i = true :=
  ⟨List.mem_of_mem_filter h, List.of_mem_filter h⟩

theorem newColl_sub {s : CState} {j : Nat} (h : j ∈ newCollOf s) : j ∈ s.gates := by
  unfold newCollOf at h
  rcases List.mem_append.mp h with h1 | h2
  · rcases List.mem_append.mp h1 with h3 | h4
    · exact (mem_inBlock h3).1
    · exact (mem_intBlock h4).1
  · exact (mem_outIds h2).1

/-- Flags transfer between the original arena and the marked arena. -/
theorem is_input_arenaMarked (s : CState) (i : Nat) :
    (gd (arenaMarked s) i).is_input = (gd s.arena i).is_input :=
  ((arenaMarked_shape s).2 i).2.2.2.2.1

theorem is_output_arenaMarked (s : CState) (i : Nat) :
    (gd (arenaMarked s) i).is_output = (gd s.arena i).is_output :=
  ((arenaMarked_shape s).2 i).2.2.2.2.2

/-- The rebuilt collection has no duplicates when no gate is dual-role. -/
theorem newColl_nodup (s : CState) (hwf : CollWF s) (hnd : NoDual s) :
    (newCollOf s).Nodup := by
  have hcol := collWF_nodup s hwf
  have hin : (inBlockOf s).Nodup := List.Nodup.filter _ hcol
  have hint : (intBlockOf s).Nodup := List.Nodup.filter _ hcol
  have hout : (outIdsOf s).Nodup := List.Nodup.filter _ hcol
  have hdis1 : (inBlockOf s).Disjoint (intBlockOf s) := by
    intro i h1 h2
    have hs1 := ((inSelB_iff _ _).mp (mem_inBlock h1).2).2
    have hs2 := ((intSelB_iff _ _).mp (mem_intBlock h2).2).2.2.1
    rw [hs1] at hs2
    simp at hs2
  have hdis2 : (inBlockOf s ++ intBlockOf s).Disjoint (outIdsOf s) := by
    intro i h1 h2
    have hso := ((effOutB_iff _ _).mp (mem_outIds h2).2).2.2
    rcases List.mem_append.mp h1 with h3 | h4
    · have hsi := ((inSelB_iff _ _).mp (mem_inBlock h3).2).2
      rw [is_input_arenaMarked] at hsi
      exact hnd i (mem_inBlock h3).1 ⟨hsi, hso⟩
    · have hs2 := ((intSelB_iff _ _).mp (mem_intBlock h4).2).2.2.2.1
      rw [is_output_arenaMarked] at hs2
      rw [hso] at hs2
      simp at hs2
  exact List.Nodup.append (List.Nodup.append hin hint hdis1) hout hdis2

/-! ### Assembled dictionary of the prune -/

/-- The complete `index_old_to_new` dictionary at the start of the remap loop
(latest writes first). -/
def dictOf (s : CState) : List (Nat × Nat) :=
  (pairsAt (arenaMarked s) (outIdsOf s) (inBlockOf s ++ intBlockOf s).length).reverse ++
    ((pairs (fun i => intSelB (arenaMarked s) i) s.gates 0 (inBlockOf s).length).reverse ++
      (pairs (fun i => inSelB (arenaMarked s) i) s.gates 0 0).reverse)

theorem pruneSt2_eq (s : CState) : pruneSt2 s =
    ((pairs (fun i => intSelB (arenaMarked s) i) s.gates 0 (inBlockOf s).length).reverse ++
       (pairs (fun i => inSelB (arenaMarked s) i) s.gates 0 0).reverse,
     inBlockOf s ++ intBlockOf s) := by
  unfold pruneSt2
  simp only [blockGo_spec]
  simp [inBlockOf, intBlockOf]

theorem pruneSt3_eq (s : CState) :
    pruneSt3 s = (arenaMarked s, dictOf s, newCollOf s) := by
  unfold pruneSt3
  rw [pruneSt2_eq]
  rw [outGo_spec (outIdsOf s) (arenaMarked s) _ _ (outIds_outputs_empty s)]
  simp [dictOf, newCollOf]

/-- Soundness of the dictionary: every entry maps the old position of a
surviving gate to a position of that same gate in the rebuilt collection. -/
theorem dict_sound (s : CState) (hwf : CollWF s) : ∀ k v, (k, v) ∈ dictOf s →
    k < s.gates.length ∧ v < (newCollOf s).length ∧
    (newCollOf s).getD v 0 = s.gates.getD k 0 := by
  intro k v hmem
  have hlen : (newCollOf s).length =
      (inBlockOf s).length + (intBlockOf s).length + (outIdsOf s).length := by
    simp [newCollOf]
    omega
  rcases List.mem_append.mp hmem with hout | hrest
  · -- output batch
    rw [List.mem_reverse] at hout
    obtain ⟨hb, hl, hk⟩ := pairsAt_mem_sound (arenaMarked s) (outIdsOf s) _ k v hout
    set m := (outIdsOf s).getD (v - (inBlockOf s ++ intBlockOf s).length) 0 with hm
    have hvm : m ∈ outIdsOf s := by
      rw [hm, List.getD_eq_getElem _ 0 hl]
      exact List.getElem_mem hl
    obtain ⟨q, hq, hqe⟩ := List.getElem_of_mem (mem_outIds hvm).1
    have hqd : s.gates.getD q 0 = m := by
      rw [List.getD_eq_getElem _ 0 hq, hqe]
    have hkq : k = q := by
      rw [hk, ← hqd, idx_arenaMarked s hwf q hq]
    subst hkq
    refine ⟨hq, ?_, ?_⟩
    · rw [hlen]
      simp only [List.length_append] at hb hl
      omega
    · rw [hqd, hm]
      unfold newCollOf
      rw [List.getD_append_right _ _ _ _ (by simpa using hb)]
  · rcases List.mem_append.mp hrest with hint | hin
    · -- interior batch
      rw [List.mem_reverse] at hint
      obtain ⟨h1p, h1l, h1b, h1f, h1s, h1e⟩ :=
        pairs_mem_sound (fun i => intSelB (arenaMarked s) i) s.gates 0 _ k v hint
      simp only [Nat.sub_zero] at h1l h1s h1e
      rw [show s.gates.filter (fun i => intSelB (arenaMarked s) i) = intBlockOf s from rfl]
        at h1f h1e
      refine ⟨h1l, by rw [hlen]; omega, ?_⟩
      unfold newCollOf
      rw [List.getD_append _ _ _ _ (by simp; omega)]
      rw [List.getD_append_right _ _ _ _ (by omega)]
      exact h1e
    · -- input batch
      rw [List.mem_reverse] at hin
      obtain ⟨h1p, h1l, h1b, h1f, h1s, h1e⟩ :=
        pairs_mem_sound (fun i => inSelB (arenaMarked s) i) s.gates 0 0 k v hin
      simp only [Nat.sub_zero] at h1l h1f h1s h1e
      rw [show s.gates.filter (fun i => inSelB (arenaMarked s) i) = inBlockOf s from rfl]
        at h1f h1e
      refine ⟨h1l, by rw [hlen]; omega, ?_⟩
      unfold newCollOf
      rw [List.getD_append _ _ _ _ (by simp; omega)]
      rw [List.getD_append _ _ _ _ (by simpa using h1f)]
      exact h1e

/-- Completeness of the dictionary: every position of the rebuilt collection
is the value of an entry whose key is the gate's old position. -/
theorem dict_complete (s : CState) (hwf : CollWF s) : ∀ r, r < (newCollOf s).length →
    ∃ k, k < s.gates.length ∧ (k, r) ∈ dictOf s ∧
      (newCollOf s).getD r 0 = s.gates.getD k 0 := by
  intro r hr
  have hlen : (newCollOf s).length =
      (inBlockOf s).length + (intBlockOf s).length + (outIdsOf s).length := by
    simp [newCollOf]
    omega
  by_cases h1 : r < (inBlockOf s).length
  · obtain ⟨q, hq, hmem, heq⟩ :=
      pairs_mem_complete (fun i => inSelB (arenaMarked s) i) s.gates 0 0 r
        (by simpa [inBlockOf] using h1)
    refine ⟨q, hq, ?_, ?_⟩
    · apply List.mem_append.mpr
      right
      apply List.mem_append.mpr
      right
      rw [List.mem_reverse]
      simpa using hmem
    · unfold newCollOf
      rw [List.getD_append _ _ _ _ (by simp; omega)]
      rw [List.getD_append _ _ _ _ (by simpa using h1)]
      rw [show List.filter (fun i => inSelB (arenaMarked s) i) s.gates = inBlockOf s from rfl]
        at heq
      exact heq.symm
  · by_cases h2 : r < (inBlockOf s).length + (intBlockOf s).length
    · obtain ⟨q, hq, hmem, heq⟩ :=
        pairs_mem_complete (fun i => intSelB (arenaMarked s) i) s.gates 0
          (inBlockOf s).length (r - (inBlockOf s).length)
          (by simp only [intBlockOf] at h2 ⊢; omega)
      refine ⟨q, hq, ?_, ?_⟩
      · apply List.mem_append.mpr
        right
        apply List.mem_append.mpr
        left
        rw [List.mem_reverse]
        have : (inBlockOf s).length + (r - (inBlockOf s).length) = r := by omega
        rw [← this]
        simpa using hmem
      · unfold newCollOf
        rw [List.getD_append _ _ _ _ (by simp; omega)]
        rw [List.getD_append_right _ _ _ _ (by omega)]
        rw [show List.filter (fun i => intSelB (arenaMarked s) i) s.gates = intBlockOf s from rfl]
          at heq
        exact heq.symm
    · have h3 : r - ((inBlockOf s).length + (intBlockOf s).length) < (outIdsOf s).length := by
        omega
      have hmem := pairsAt_mem_complete (arenaMarked s) (outIdsOf s)
        (inBlockOf s ++ intBlockOf s).length (r - ((inBlockOf s).length + (intBlockOf s).length)) h3
      set m := (outIdsOf s).getD (r - ((inBlockOf s).length + (intBlockOf s).length)) 0 with hm
      have hvm : m ∈ outIdsOf s := by
        rw [hm, List.getD_eq_getElem _ 0 h3]
        exact List.getElem_mem h3
      obtain ⟨q, hq, hqe⟩ := List.getElem_of_mem (mem_outIds hvm).1
      have hqd : s.gates.getD q 0 = m := by
        rw [List.getD_eq_getElem _ 0 hq, hqe]
      have hkq : (gd (arenaMarked s) m).index = q := by
        rw [← hqd, idx_arenaMarked s hwf q hq]
      refine ⟨q, hq, ?_, ?_⟩
      · apply List.mem_append.mpr
        left
        rw [List.mem_reverse]
        have harith : (inBlockOf s ++ intBlockOf s).length +
            (r - ((inBlockOf s).length + (intBlockOf s).length)) = r := by
          simp only [List.length_append]
          omega
        rw [← hkq, ← harith]
        exact hmem
      · unfold newCollOf
        rw [List.getD_append_right _ _ _ _ (by simp; omega)]
        rw [hqd]
        simp only [List.length_append]

/-- Every lookup performed by the remap loop succeeds and returns the gate's
new position. -/
theorem dict_lookup_all (s : CState) (hwf : CollWF s) (hnd : NoDual s) :
    ∀ r, r < (newCollOf s).length →
      List.lookup (gd (arenaMarked s) ((newCollOf s).getD r 0)).index (dictOf s) =
        some r := by
  intro r hr
  obtain ⟨k, hk, hmem, hre⟩ := dict_complete s hwf r hr
  have hkey : (gd (arenaMarked s) ((newCollOf s).getD r 0)).index = k := by
    rw [hre]
    exact idx_arenaMarked s hwf k hk
  rw [hkey]
  apply lookup_unique hmem
  intro p hp hp1
  obtain ⟨hk', hv', he'⟩ := dict_sound s hwf p.1 p.2 (by simpa using hp)
  rw [hp1] at he'
  rw [← hre] at he'
  exact nodup_getD_inj (newColl_nodup s hwf hnd) hv' hr he'

/-- Main characterization of a successful prune: the rebuilt collection is the
three filtered blocks in order, every surviving gate's `index` equals its new
position, and all other fields agree with the marked arena. -/
theorem prune_spec (s : CState) (hwf : CollWF s) (hnd : NoDual s) :
    ∃ t, prune s = some t ∧ t.gates = newCollOf s ∧
      t.arena.length = s.arena.length ∧
      (∀ r, r < (newCollOf s).length → (gd t.arena ((newCollOf s).getD r 0)).index = r) ∧
      (∀ j, sameButIndex (gd t.arena j) (gd (arenaMarked s) j)) ∧
      (∀ j, j ∉ newCollOf s → gd t.arena j = gd (arenaMarked s) j) := by
  have hnodup := newColl_nodup s hwf hnd
  have hval : ∀ j ∈ newCollOf s, j < (arenaMarked s).length := by
    intro j hj
    rw [(arenaMarked_shape s).1]
    exact hwf.1 j (newColl_sub hj)
  have hlk : ∀ r, r < (newCollOf s).length →
      List.lookup (gd (arenaMarked s) ((newCollOf s).getD r 0)).index (dictOf s) =
        some (0 + r) := by
    intro r hr
    rw [Nat.zero_add]
    exact dict_lookup_all s hwf hnd r hr
  obtain ⟨b, hb, hbi, hbu⟩ :=
    remapGo_ok (dictOf s) (newCollOf s) 0 (arenaMarked s) hnodup hval hlk
  obtain ⟨hbl, hbs⟩ := remapGo_pres (dictOf s) (newCollOf s) _ _ hb
  refine ⟨⟨b, newCollOf s⟩, ?_, rfl, ?_, ?_, hbs, hbu⟩
  · unfold prune
    rw [pruneSt3_eq]
    dsimp only
    rw [hb]
  · rw [hbl, (arenaMarked_shape s).1]
  · intro r hr
    have := hbi r hr
    simpa using this

/-! ### Marks computed by the prune -/

/-- A marked set closed under `inputs` (holds after every complete marking
pass). -/
def ClosedAll (a : List Gate) : Prop :=
  ∀ i, (gd a i).is_marked = true → ∀ j ∈ (gd a i).inputs, (gd a j).is_marked = true

theorem ClosedAll.below {a : List Gate} (h : ClosedAll a) (n : Nat) : ClosedBelow a n :=
  fun i _ => h i

/-- After the reset loop and the marking loop, the marked gates are exactly
those backward-reachable from some effective output gate. -/
theorem arenaMarked_marks (s : CState)
    (hdec : DecInputs s.arena)
    (hval : ∀ i ∈ s.gates, i < s.arena.length)
    (hgarbage : ∀ i, i < s.arena.length → i ∉ s.gates → (gd s.arena i).is_marked = false) :
    ∀ k, (gd (arenaMarked s) k).is_marked = true ↔
      ∃ o ∈ outIdsOf s, Reach s.arena o k := by
  obtain ⟨hrl, hrs, hrm, hrn⟩ := resetFold_spec s.gates s.arena
  set a1 := s.gates.foldl (fun a i => setG a i (fun g => { g with is_marked := false })) s.arena
    with ha1
  have ha1clean : ∀ i, (gd a1 i).is_marked = false := by
    intro i
    by_cases hil : i < s.arena.length
    · by_cases him : i ∈ s.gates
      · exact hrm i him hil
      · rw [hrn i him]
        exact hgarbage i hil him
    · rw [gd_oob a1 i (by rw [hrl]; exact hil)]
      rfl
  have ha1graph : ∀ x, (gd a1 x).inputs = (gd s.arena x).inputs := fun x => (hrs x).2.1
  have ha1dec : DecInputs a1 := by
    intro i hi j hj
    rw [ha1graph i] at hj
    exact decInputs_all hdec i j hj
  have hfold : ∀ (os : List Nat) (b : List Gate),
      DecInputs b → b.length = s.arena.length →
      (∀ x, (gd b x).inputs = (gd s.arena x).inputs) →
      (∀ o ∈ os, o < b.length) → ClosedAll b →
      ∀ k, (gd (os.foldl (fun c j => markF (j + 1) c j) b) k).is_marked = true ↔
        ((gd b k).is_marked = true ∨ ∃ o ∈ os, Reach s.arena o k) := by
    intro os
    induction os with
    | nil =>
      intro b _ _ _ _ _ k
      simp
    | cons o os' ih =>
      intro b hdecb hlenb hgraphb hvalb hclb k
      simp only [List.foldl_cons]
      have ho : o < b.length := hvalb o (List.mem_cons_self _ _)
      have hchar := markF_marks o (o + 1) (by omega) b hdecb ho (hclb.below (o + 1))
      set c := markF (o + 1) b o with hc
      have hcharc : ∀ y, (gd c y).is_marked = true ↔
          ((gd b y).is_marked = true ∨ Reach s.arena o y) := by
        intro y
        rw [hchar y]
        constructor
        · rintro (h | h)
          · exact Or.inl h
          · exact Or.inr (Reach_congr hgraphb h)
        · rintro (h | h)
          · exact Or.inl h
          · exact Or.inr (Reach_congr (fun z => (hgraphb z).symm) h)
      have hgraphc : ∀ x, (gd c x).inputs = (gd s.arena x).inputs := by
        intro x
        rw [hc, markF_inputs, hgraphb]
      have hdecc : DecInputs c := by
        intro i hi j hj
        rw [hgraphc i] at hj
        exact decInputs_all hdec i j hj
      have hlenc : c.length = s.arena.length := by
        rw [hc, markF_length, hlenb]
      have hclc : ClosedAll c := by
        intro y hy j hj
        rw [hgraphc y] at hj
        rcases (hcharc y).1 hy with h | h
        · refine (hcharc j).2 (Or.inl ?_)
          have := hclb y h j (by rw [hgraphb y]; exact hj)
          exact this
        · exact (hcharc j).2 (Or.inr (Reach_to_input h (by rw [← hgraphc y] at hj; exact (hgraphc y ▸ hj))))
      have hrest := ih c hdecc hlenc hgraphc
        (fun o' ho' => by rw [hlenc, ← hlenb]; exact hvalb o' (List.mem_cons_of_mem _ ho'))
        hclc k
      rw [hrest]
      constructor
      · rintro (h | ⟨o', ho', hr⟩)
        · rcases (hcharc k).1 h with h' | h'
          · exact Or.inl h'
          · exact Or.inr ⟨o, List.mem_cons_self _ _, h'⟩
        · exact Or.inr ⟨o', List.mem_cons_of_mem _ ho', hr⟩
      · rintro (h | ⟨o', ho', hr⟩)
        · exact Or.inl ((hcharc k).2 (Or.inl h))
        · rcases List.mem_cons.mp ho' with h1 | h1
          · subst h1
            exact Or.inl ((hcharc k).2 (Or.inr hr))
          · exact Or.inr ⟨o', h1, hr⟩
  intro k
  unfold arenaMarked resetArena
  rw [← ha1]
  rw [hfold (outIdsOf s) a1 ha1dec hrl ha1graph
    (fun o ho => by rw [hrl]; exact hval o (mem_outIds ho).1) (fun i hi => by rw [ha1clean i] at hi; cases hi) k]
  rw [ha1clean k]
  simp

/-! ### C10: the prune never rewires gates -/

/-- Input gate, dead `NOT` gate, and an output gate fed by the input: after
pruning, the dead gate is dropped but the input gate's `outputs` still lists
it. -/
def c10s : CState :=
  ⟨[⟨idOp, [], [1, 2], 0, true, false, false⟩,
    ⟨[1, 0], [0], [], 1, false, false, false⟩,
    ⟨idOp, [0], [], 2, false, true, false⟩], [0, 1, 2]⟩

/-- `c10s` is literally the state built by `c = circuit(); g0 = c.gate(op.id_,
is_input=True); g1 = c.gate(op.not_, [g0]); g2 = c.gate(op.id_, [g0],
is_output=True)`. -/
theorem c10s_buildable :
    (circuitGate (circuitGate (circuitGate emptyC idOp none true false).2
        [1, 0] (some [some 0]) false false).2
        idOp (some [some 0]) false true).2 = c10s := by
  decide

/-- C10: `prune_and_topological_sort_stable` never modifies any gate's
`inputs` list, and never modifies any gate's `outputs` list either (the
effective output gates it "clears" already have empty `outputs`, by the very
filter that selects them); consequently a surviving gate's `outputs` can
still reference gates that were dropped from the collection, as the concrete
circuit `c10s` shows. -/
theorem prune_frame_and_stale :
    (∀ (s t : CState), prune s = some t →
      (∀ j, (gd t.arena j).inputs = (gd s.arena j).inputs) ∧
      (∀ j, (gd t.arena j).outputs = (gd s.arena j).outputs)) ∧
    (∃ t, prune c10s = some t ∧ 0 ∈ t.gates ∧ 1 ∈ (gd t.arena 0).outputs ∧ 1 ∉ t.gates) := by
  constructor
  · intro s t h
    unfold prune at h
    rw [pruneSt3_eq] at h
    dsimp only at h
    cases hrm : remapGo (dictOf s) (arenaMarked s) (newCollOf s) with
    | none => rw [hrm] at h; cases h
    | some a4 =>
      rw [hrm] at h
      have ht : t = ⟨a4, newCollOf s⟩ := by
        cases h
        rfl
      subst ht
      obtain ⟨-, hbs⟩ := remapGo_pres (dictOf s) (newCollOf s) _ _ hrm
      constructor
      · intro j
        rw [(hbs j).2.1, ((arenaMarked_shape s).2 j).2.1]
      · intro j
        rw [(hbs j).2.2.1, ((arenaMarked_shape s).2 j).2.2.1]
  · refine ⟨(prune c10s).getD emptyC, by decide, by decide, by decide, by decide⟩

/-- Witness for C10: the universal frame part instantiated on `c10s`. -/
theorem prune_frame_and_stale_witness :
    prune c10s = some ((prune c10s).getD emptyC) ∧
    (∀ j, (gd ((prune c10s).getD emptyC).arena j).inputs = (gd c10s.arena j).inputs) ∧
    (∀ j, (gd ((prune c10s).getD emptyC).arena j).outputs = (gd c10s.arena j).outputs) :=
  ⟨by decide, (prune_frame_and_stale.1 c10s _ (by decide)).1,
    (prune_frame_and_stale.1 c10s _ (by decide)).2⟩

/-! ### C4: the rebuilt collection -/

/-- A dead nullary-true gate, a gate flagged both input and output, and an
input gate. -/
def c4s : CState :=
  ⟨[⟨[1], [], [], 0, false, false, false⟩,
    ⟨idOp, [], [], 1, true, true, false⟩,
    ⟨idOp, [], [], 2, true, false, false⟩], [0, 1, 2]⟩

/-- `c4s` is the state built by `c.gate(op.nt_); c.gate(op.id_, is_input=True,
is_output=True); c.gate(op.id_, is_input=True)`. -/
theorem c4s_buildable :
    (circuitGate (circuitGate (circuitGate emptyC [1] none false false).2
        idOp none true true).2 idOp none true false).2 = c4s := by
  decide

/-- C4 counterexample: on `c4s` (buildable through the public interface) the
prune succeeds but the dual-role gate is appended to both the input block and
the output block, the dictionary writes collide, and afterwards the gate at
position 0 of the rebuilt collection carries index 1, not 0 — the claimed
block/index structure fails. -/
theorem prune_blocks_cex :
    ∃ t, prune c4s = some t ∧ t.gates.getD 0 999 = 1 ∧ (gd t.arena 1).index = 1 ∧
      ¬ (gd t.arena (t.gates.getD 0 999)).index = 0 := by
  refine ⟨(prune c4s).getD emptyC, by decide, by decide, by decide, by decide⟩

/-- C4 (amended): for every well-formed circuit in which no gate is flagged
both input and output, the prune succeeds and rebuilds the gate sequence as
three contiguous blocks — the `is_input` gates with no inputs, then the
surviving interior gates, then the effective output gates — each a filter of
the original sequence (hence preserving original relative order), with every
effective output gate's `outputs` cleared and every surviving gate's `index`
equal to its position in the rebuilt sequence. -/
theorem prune_blocks (s : CState) (hwf : CollWF s) (hnd : NoDual s) :
    ∃ t, prune s = some t ∧
      t.gates = s.gates.filter (fun i => inSelB (arenaMarked s) i) ++
        s.gates.filter (fun i => intSelB (arenaMarked s) i) ++
        s.gates.filter (fun i => effOutB s.arena i) ∧
      (∀ i ∈ outIdsOf s, (gd t.arena i).outputs = []) ∧
      (∀ r, r < t.gates.length → (gd t.arena (t.gates.getD r 0)).index = r) := by
  obtain ⟨t, hp, hg, hl, hidx, hsbi, huntouched⟩ := prune_spec s hwf hnd
  refine ⟨t, hp, hg, ?_, ?_⟩
  · intro i hi
    rw [(hsbi i).2.2.1, ((arenaMarked_shape s).2 i).2.2.1]
    exact ((effOutB_iff _ _).mp (mem_outIds hi).2).1
  · intro r hr
    rw [hg] at hr ⊢
    exact hidx r hr

/-- The five-gate doctest circuit: two inputs, an AND gate, a dead OR gate,
and an output gate reading the AND. -/
def candC : CState :=
  ⟨[⟨idOp, [], [2, 3], 0, true, false, false⟩,
    ⟨idOp, [], [2, 3], 1, true, false, false⟩,
    ⟨[0, 0, 0, 1], [0, 1], [4], 2, false, false, false⟩,
    ⟨[0, 1, 1, 1], [0, 1], [], 3, false, false, false⟩,
    ⟨idOp, [2], [], 4, false, true, false⟩], [0, 1, 2, 3, 4]⟩

/-- Witness for C4 (amended) on the concrete doctest circuit `candC`. -/
theorem prune_blocks_witness :
    (CollWF candC ∧ NoDual candC) ∧
    ∃ t, prune candC = some t ∧
      t.gates = candC.gates.filter (fun i => inSelB (arenaMarked candC) i) ++
        candC.gates.filter (fun i => intSelB (arenaMarked candC) i) ++
        candC.gates.filter (fun i => effOutB candC.arena i) ∧
      (∀ i ∈ outIdsOf candC, (gd t.arena i).outputs = []) ∧
      (∀ r, r < t.gates.length → (gd t.arena (t.gates.getD r 0)).index = r) :=
  ⟨⟨by decide, by decide⟩, prune_blocks candC (by decide) (by decide)⟩

/-! ### C2: idempotence of the prune -/

theorem Reach_pred {a : List Gate} {o i : Nat} (h : Reach a o i) :
    o = i ∨ ∃ y, i ∈ (gd a y).inputs ∧ Reach a o y := by
  induction h with
  | refl _ => exact Or.inl rfl
  | step hj hr ih =>
    rename_i o' j' i'
    rcases ih with h1 | ⟨y, hy1, hy2⟩
    · subst h1
      exact Or.inr ⟨o', hj, Reach.refl o'⟩
    · exact Or.inr ⟨y, hy1, Reach.step hj hy2⟩

/-- Structural invariants of the gate arena maintained by construction:
inputs point to strictly earlier gates; a gate is listed in each of its
inputs' `outputs`; output gates are identity sinks; a non-input gate has
inputs or a nullary operation. -/
def ArenaWF (s : CState) : Prop :=
  DecInputs s.arena ∧
  (∀ i, i < s.arena.length → ∀ j ∈ (gd s.arena i).inputs, i ∈ (gd s.arena j).outputs) ∧
  (∀ i, i < s.arena.length → (gd s.arena i).is_output = true →
      (gd s.arena i).outputs = [] ∧ (gd s.arena i).operation = idOp) ∧
  (∀ i, i < s.arena.length → (gd s.arena i).is_input = false →
      (¬(gd s.arena i).inputs = [] ∨ (gd s.arena i).operation ∈ nullaryOps))

instance (s : CState) : Decidable (ArenaWF s) := by
  unfold ArenaWF DecInputs
  infer_instance

/-- On a freshly built circuit (collection = whole arena, no input-role gate
with inputs, no dual-role gate), every gate marked by the prune's marking
pass survives into the rebuilt collection. -/
theorem marked_survives (s : CState) (hwf : CollWF s) (hnd : NoDual s)
    (hawf : ArenaWF s) (hfresh : s.gates = List.range s.arena.length)
    (hinz : ∀ i, i < s.arena.length → (gd s.arena i).is_input = true →
      (gd s.arena i).inputs = []) :
    ∀ i, (gd (arenaMarked s) i).is_marked = true → i ∈ newCollOf s := by
  have hmemiff : ∀ i, i ∈ s.gates ↔ i < s.arena.length := by
    intro i
    rw [hfresh]
    exact List.mem_range
  have hgarbage : ∀ i, i < s.arena.length → i ∉ s.gates → (gd s.arena i).is_marked = false :=
    fun i hi hin => absurd ((hmemiff i).mpr hi) hin
  have hm := arenaMarked_marks s hawf.1 (fun i hi => (hmemiff i).mp hi) hgarbage
  intro i hmk
  obtain ⟨o, ho, hr⟩ := (hm i).1 hmk
  have holen : o < s.arena.length := (hmemiff o).mp (mem_outIds ho).1
  have hilen : i < s.arena.length := by
    have := Reach_le hawf.1 hr
    omega
  have himem : i ∈ s.gates := (hmemiff i).mpr hilen
  unfold newCollOf
  by_cases hin : (gd s.arena i).is_input = true
  · -- input block
    apply List.mem_append.mpr
    left
    apply List.mem_append.mpr
    left
    apply List.mem_filter.mpr
    refine ⟨himem, ?_⟩
    rw [inSelB_iff]
    rw [((arenaMarked_shape s).2 i).2.1, is_input_arenaMarked]
    exact ⟨hinz i hilen hin, hin⟩
  · by_cases hout : (gd s.arena i).is_output = true
    · -- output block
      apply List.mem_append.mpr
      right
      apply List.mem_filter.mpr
      refine ⟨himem, ?_⟩
      rw [effOutB_iff]
      obtain ⟨ho1, ho2⟩ := hawf.2.2.1 i hilen hout
      exact ⟨ho1, ho2, hout⟩
    · -- interior block
      apply List.mem_append.mpr
      left
      apply List.mem_append.mpr
      right
      apply List.mem_filter.mpr
      refine ⟨himem, ?_⟩
      rw [intSelB_iff]
      have hsh := (arenaMarked_shape s).2 i
      rw [hsh.2.1, hsh.2.2.1, hsh.1, is_input_arenaMarked, is_output_arenaMarked]
      refine ⟨?_, ?_, by simpa using hin, by simpa using hout, hmk⟩
      · exact hawf.2.2.2 i hilen (by simpa using hin)
      · -- i has a consumer, hence non-empty outputs
        rcases Reach_pred hr with hoi | ⟨y, hy1, hy2⟩
        · subst hoi
          have := ((effOutB_iff _ _).mp (mem_outIds ho).2).2.2
          exact absurd this hout
        · have hylen : y < s.arena.length := by
            have := Reach_le hawf.1 hy2
            omega
          have := hawf.2.1 y hylen i hy1
          exact List.ne_nil_of_mem this

/-- C2 counterexample: the four-gate circuit with an input-role gate that has
an input (`c.gate(op.id_, [g1], is_input=True)`). -/
def c2s : CState :=
  ⟨[⟨idOp, [], [1], 0, true, false, false⟩,
    ⟨[1, 0], [0], [2], 1, false, false, false⟩,
    ⟨idOp, [1], [3], 2, true, false, false⟩,
    ⟨idOp, [2], [], 3, false, true, false⟩], [0, 1, 2, 3]⟩

/-- `c2s` is the state built by `g0 = c.gate(op.id_, is_input=True);
g1 = c.gate(op.not_, [g0]); g2 = c.gate(op.id_, [g1], is_input=True);
g3 = c.gate(op.id_, [g2], is_output=True)`. -/
theorem c2s_buildable :
    (circuitGate (circuitGate (circuitGate (circuitGate emptyC
        idOp none true false).2
        [1, 0] (some [some 0]) false false).2
        idOp (some [some 1]) true false).2
        idOp (some [some 2]) false true).2 = c2s := by
  decide

/-- C2 counterexample: pruning `c2s` once yields the gate list `[g0, g1, g3]`
(the input-role gate `g2` with an input is dropped but keeps its mark);
pruning again strands `g1` because the marking pass stops at the stale mark
on the dropped `g2`, so the second prune yields `[g0, g3]` — not the same
gate sequence. -/
theorem prune_not_idempotent_cex :
    ∃ t u, prune c2s = some t ∧ prune t = some u ∧
      t.gates = [0, 1, 3] ∧ u.gates = [0, 3] ∧ ¬ u.gates = t.gates := by
  refine ⟨(prune c2s).getD emptyC, (prune ((prune c2s).getD emptyC)).getD emptyC,
    by decide, by decide, by decide, by decide, by decide⟩

/-- C2 (amended): on a freshly built well-formed circuit with no dual-role
gate and no input-role gate carrying inputs, the prune is idempotent: a
second application returns the same gate sequence — the same gate objects in
the same order — with the same indices. -/
theorem prune_idempotent (s : CState) (hwf : CollWF s) (hnd : NoDual s)
    (hawf : ArenaWF s) (hfresh : s.gates = List.range s.arena.length)
    (hinz : ∀ i, i < s.arena.length → (gd s.arena i).is_input = true →
      (gd s.arena i).inputs = []) :
    ∃ t u, prune s = some t ∧ prune t = some u ∧ u.gates = t.gates ∧
      (∀ r, r < t.gates.length →
        (gd u.arena (t.gates.getD r 0)).index = r ∧
        (gd t.arena (t.gates.getD r 0)).index = r) := by
  have hmemiff : ∀ i, i ∈ s.gates ↔ i < s.arena.length := by
    intro i
    rw [hfresh]
    exact List.mem_range
  obtain ⟨t, hp, hg, hl, hidx, hsbi, hun⟩ := prune_spec s hwf hnd
  -- field transfer from t.arena all the way back to s.arena
  have htf : ∀ j, (gd t.arena j).inputs = (gd s.arena j).inputs ∧
      (gd t.arena j).outputs = (gd s.arena j).outputs ∧
      (gd t.arena j).operation = (gd s.arena j).operation ∧
      (gd t.arena j).is_input = (gd s.arena j).is_input ∧
      (gd t.arena j).is_output = (gd s.arena j).is_output ∧
      (gd t.arena j).is_marked = (gd (arenaMarked s) j).is_marked := by
    intro j
    obtain ⟨h1, h2, h3, h4, h5, h6⟩ := hsbi j
    obtain ⟨g1, g2, g3, g4, g5, g6⟩ := (arenaMarked_shape s).2 j
    exact ⟨h2.trans g2, h3.trans g3, h1.trans g1, h4.trans g5, h5.trans g6, h6⟩
  have hsub : ∀ i ∈ t.gates, i ∈ s.gates := by
    intro i hi
    rw [hg] at hi
    exact newColl_sub hi
  have hwf_t : CollWF t := by
    constructor
    · intro i hi
      rw [hl]
      exact hwf.1 i (hsub i hi)
    · rw [hg]
      exact hidx
  have hnd_t : NoDual t := by
    intro i hi
    rw [(htf i).2.2.2.1, (htf i).2.2.2.2.1]
    exact hnd i (hsub i hi)
  have hsurv := marked_survives s hwf hnd hawf hfresh hinz
  have hgarbage_t : ∀ i, i < t.arena.length → i ∉ t.gates →
      (gd t.arena i).is_marked = false := by
    intro i _ hin
    rw [(htf i).2.2.2.2.2]
    by_contra hc
    have hmk : (gd (arenaMarked s) i).is_marked = true := by
      cases hb : (gd (arenaMarked s) i).is_marked
      · exact absurd hb hc
      · rfl
    exact hin (hg ▸ hsurv i hmk)
  have hdec_t : DecInputs t.arena := by
    intro i hi j hj
    rw [(htf i).1] at hj
    exact decInputs_all hawf.1 i j hj
  have hgraph_t : ∀ x, (gd t.arena x).inputs = (gd s.arena x).inputs := fun x => (htf x).1
  -- the three selectors are unchanged in the second pass
  have houts_t : outIdsOf t = outIdsOf s := by
    unfold outIdsOf
    rw [hg]
    unfold newCollOf
    rw [List.filter_append, List.filter_append]
    have h1 : (inBlockOf s).filter (fun i => effOutB t.arena i) = [] := by
      apply List.filter_eq_nil_iff.mpr
      intro i hi
      have hsi := ((inSelB_iff _ _).mp (mem_inBlock hi).2).2
      rw [is_input_arenaMarked] at hsi
      have hso : (gd s.arena i).is_output = false := by
        cases hb : (gd s.arena i).is_output
        · rfl
        · exact absurd ⟨hsi, hb⟩ (hnd i (mem_inBlock hi).1)
      intro hc
      have := ((effOutB_iff _ _).mp hc).2.2
      rw [(htf i).2.2.2.2.1, hso] at this
      cases this
    have h2 : (intBlockOf s).filter (fun i => effOutB t.arena i) = [] := by
      apply List.filter_eq_nil_iff.mpr
      intro i hi
      have hso := ((intSelB_iff _ _).mp (mem_intBlock hi).2).2.2.2.1
      rw [is_output_arenaMarked] at hso
      intro hc
      have := ((effOutB_iff _ _).mp hc).2.2
      rw [(htf i).2.2.2.2.1, hso] at this
      cases this
    have h3 : (outIdsOf s).filter (fun i => effOutB t.arena i) = outIdsOf s := by
      apply List.filter_eq_self.mpr
      intro i hi
      obtain ⟨ho1, ho2, ho3⟩ := (effOutB_iff _ _).mp (mem_outIds hi).2
      rw [effOutB_iff, (htf i).2.1, (htf i).2.2.1, (htf i).2.2.2.2.1]
      exact ⟨ho1, ho2, ho3⟩
    rw [h1, h2, h3]
    rfl
  have hm_s := arenaMarked_marks s hawf.1 (fun i hi => (hmemiff i).mp hi)
    (fun i hi hin => absurd ((hmemiff i).mpr hi) hin)
  have hm_t := arenaMarked_marks t hdec_t hwf_t.1 hgarbage_t
  have hmarked_eq : ∀ k, (gd (arenaMarked t) k).is_marked =
      (gd (arenaMarked s) k).is_marked := by
    intro k
    apply Bool.coe_iff_coe.mp
    rw [hm_t k, hm_s k, houts_t]
    constructor
    · rintro ⟨o, ho, hr⟩
      exact ⟨o, ho, Reach_congr hgraph_t hr⟩
    · rintro ⟨o, ho, hr⟩
      exact ⟨o, ho, Reach_congr (fun x => (hgraph_t x).symm) hr⟩
  have hinSel_eq : ∀ i, inSelB (arenaMarked t) i = inSelB (arenaMarked s) i := by
    intro i
    unfold inSelB
    rw [((arenaMarked_shape t).2 i).2.1, is_input_arenaMarked t i, (htf i).1,
      (htf i).2.2.2.1, ((arenaMarked_shape s).2 i).2.1, is_input_arenaMarked s i]
  have hintSel_eq : ∀ i, intSelB (arenaMarked t) i = intSelB (arenaMarked s) i := by
    intro i
    unfold intSelB
    obtain ⟨k1, k2, k3, k4, k5, k6⟩ := (arenaMarked_shape t).2 i
    obtain ⟨g1, g2, g3, g4, g5, g6⟩ := (arenaMarked_shape s).2 i
    rw [k1, k2, k3, k5, k6]
    obtain ⟨f1, f2, f3, f4, f5, f6⟩ := htf i
    rw [f1, f2, f3, f4, f5]
    rw [← g1, ← g2, ← g3, ← g5, ← g6]
    have hmk : (gd (arenaMarked t) i).is_marked = (gd (arenaMarked s) i).is_marked :=
      hmarked_eq i
    rw [hmk]
  have hin_t : inBlockOf t = inBlockOf s := by
    unfold inBlockOf
    rw [hg]
    unfold newCollOf
    rw [List.filter_append, List.filter_append]
    have h1 : (inBlockOf s).filter (fun i => inSelB (arenaMarked t) i) = inBlockOf s := by
      apply List.filter_eq_self.mpr
      intro i hi
      rw [hinSel_eq]
      exact (mem_inBlock hi).2
    have h2 : (intBlockOf s).filter (fun i => inSelB (arenaMarked t) i) = [] := by
      apply List.filter_eq_nil_iff.mpr
      intro i hi hc
      rw [hinSel_eq] at hc
      have hni := ((intSelB_iff _ _).mp (mem_intBlock hi).2).2.2.1
      have := ((inSelB_iff _ _).mp hc).2
      rw [hni] at this
      cases this
    have h3 : (outIdsOf s).filter (fun i => inSelB (arenaMarked t) i) = [] := by
      apply List.filter_eq_nil_iff.mpr
      intro i hi hc
      rw [hinSel_eq] at hc
      have hso := ((effOutB_iff _ _).mp (mem_outIds hi).2).2.2
      have hsi := ((inSelB_iff _ _).mp hc).2
      rw [is_input_arenaMarked] at hsi
      exact hnd i (mem_outIds hi).1 ⟨hsi, hso⟩
    rw [h1, h2, h3]
    simp [inBlockOf]
  have hint_t : intBlockOf t = intBlockOf s := by
    unfold intBlockOf
    rw [hg]
    unfold newCollOf
    rw [List.filter_append, List.filter_append]
    have h1 : (inBlockOf s).filter (fun i => intSelB (arenaMarked t) i) = [] := by
      apply List.filter_eq_nil_iff.mpr
      intro i hi hc
      rw [hintSel_eq] at hc
      have hsi := ((inSelB_iff _ _).mp (mem_inBlock hi).2).2
      have := ((intSelB_iff _ _).mp hc).2.2.1
      rw [hsi] at this
      cases this
    have h2 : (intBlockOf s).filter (fun i => intSelB (arenaMarked t) i) = intBlockOf s := by
      apply List.filter_eq_self.mpr
      intro i hi
      rw [hintSel_eq]
      exact (mem_intBlock hi).2
    have h3 : (outIdsOf s).filter (fun i => intSelB (arenaMarked t) i) = [] := by
      apply List.filter_eq_nil_iff.mpr
      intro i hi hc
      rw [hintSel_eq] at hc
      have hso := ((effOutB_iff _ _).mp (mem_outIds hi).2).2.2
      have := ((intSelB_iff _ _).mp hc).2.2.2.1
      rw [is_output_arenaMarked, hso] at this
      cases this
    rw [h1, h2, h3]
    simp [intBlockOf]
  have hnewcoll_t : newCollOf t = t.gates := by
    unfold newCollOf
    rw [hin_t, hint_t, houts_t, hg]
    rfl
  obtain ⟨u, hpu, hgu, hlu, hidxu, hsbiu, hunu⟩ := prune_spec t hwf_t hnd_t
  refine ⟨t, u, hp, hpu, ?_, ?_⟩
  · rw [hgu, hnewcoll_t]
  · intro r hr
    constructor
    · have := hidxu r (by rw [hnewcoll_t]; exact hr)
      rw [hnewcoll_t] at this
      exact this
    · rw [hg] at hr ⊢
      exact hidx r hr

/-- Witness for C2 (amended) on the concrete doctest circuit `candC`. -/
theorem prune_idempotent_witness :
    (CollWF candC ∧ NoDual candC ∧ ArenaWF candC ∧
     candC.gates = List.range candC.arena.length ∧
     (∀ i, i < candC.arena.length → (gd candC.arena i).is_input = true →
       (gd candC.arena i).inputs = [])) ∧
    ∃ t u, prune candC = some t ∧ prune t = some u ∧ u.gates = t.gates ∧
      (∀ r, r < t.gates.length →
        (gd u.arena (t.gates.getD r 0)).index = r ∧
        (gd t.arena (t.gates.getD r 0)).index = r) :=
  ⟨⟨by decide, by decide, by decide, by decide, by decide⟩,
    prune_idempotent candC (by decide) (by decide) (by decide) (by decide) (by decide)⟩

/-! ### C7: circuit depth -/

/-- Python's `list.index` on the gate list: position of the first occurrence,
`none` for the `ValueError` when the element is absent. -/
def idxOf? (j : Nat) : List Nat → Option Nat
  | [] => none
  | x :: xs => if x = j then some 0 else (idxOf? j xs).map (· + 1)

/-- One evaluation of the generator
`(depths[self.gates.index(g_in)] for g_in in g.inputs)`: `none` models the
`ValueError` from `index` or the `KeyError` from `depths`. -/
def depthIns (s : CState) (acc : List Nat) : List Nat → Option (List Nat)
  | [] => some []
  | j :: rest =>
    match idxOf? j s.gates with
    | none => none
    | some q =>
      match acc[q]? with
      | none => none
      | some v =>
        match depthIns s acc rest with
        | none => none
        | some vs => some (v :: vs)

/-- One iteration of `for (i, g) in enumerate(self.gates)` in `circuit.depth`:
append `(1 if predicate(g) else 0) + max(..., default=0)` to the table. -/
def depthStep (s : CState) (pred : Gate → Bool) (acc : List Nat) (i : Nat) :
    Option (List Nat) :=
  match depthIns s acc (gd s.arena i).inputs with
  | none => none
  | some vs => some (acc ++ [(if pred (gd s.arena i) then 1 else 0) + vs.foldl max 0])

/-- `circuit.depth(predicate)`: the depth table built in gate order, then
`max(depths.values(), default=0)`. -/
def depthC (s : CState) (pred : Gate → Bool) : Option Nat :=
  match s.gates.foldlM (depthStep s pred) [] with
  | none => none
  | some ds => some (ds.foldl max 0)

theorem idxOf?_mem {j : Nat} {l : List Nat} (h : j ∈ l) :
    ∃ q, idxOf? j l = some q ∧ q < l.length ∧ l.getD q 0 = j := by
  induction l with
  | nil => cases h
  | cons x xs ih =>
    by_cases hx : x = j
    · exact ⟨0, by simp [idxOf?, hx], by simp, by simp [hx]⟩
    · have hj : j ∈ xs := by
        rcases List.mem_cons.mp h with h1 | h1
        · exact absurd h1.symm hx
        · exact h1
      obtain ⟨q, hq1, hq2, hq3⟩ := ih hj
      exact ⟨q + 1, by simp [idxOf?, hx, hq1], by simpa using hq2, by simpa using hq3⟩

theorem depthIns_ok (s : CState) (d : Nat → Nat) (pre suf : List Nat)
    (hsg : s.gates = pre ++ suf) (hnd : s.gates.Nodup) :
    ∀ ins, (∀ j ∈ ins, j ∈ pre) →
      depthIns s (pre.map d) ins = some (ins.map d) := by
  intro ins hins
  induction ins with
  | nil => rfl
  | cons j rest ih =>
    have hjp : j ∈ pre := hins j (List.mem_cons_self j rest)
    obtain ⟨q0, hq0⟩ := List.mem_iff_getElem.mp hjp
    obtain ⟨hq0l, hq0v⟩ := hq0
    have hjg : j ∈ s.gates := by
      rw [hsg]
      exact List.mem_append.mpr (Or.inl hjp)
    obtain ⟨q, hq1, hq2, hq3⟩ := idxOf?_mem hjg
    have hpg : s.gates.getD q0 0 = j := by
      rw [hsg, List.getD_append _ _ _ _ hq0l, List.getD_eq_getElem pre 0 hq0l, hq0v]
    have hqe : q = q0 := by
      apply nodup_getD_inj hnd hq2 _ (hq3.trans hpg.symm)
      rw [hsg]
      simp only [List.length_append]
      omega
    subst hqe
    have hacc : (pre.map d)[q]? = some (d j) := by
      rw [List.getElem?_map]
      rw [List.getElem?_eq_getElem hq0l, hq0v]
      rfl
    have ihr := ih (fun x hx => hins x (List.mem_cons_of_mem j hx))
    simp only [depthIns, hq1, hacc, ihr, List.map_cons]

theorem depth_fold (s : CState) (pred : Gate → Bool) (d : Nat → Nat)
    (hnd : s.gates.Nodup)
    (horder : ∀ p, p < s.gates.length →
      ∀ j ∈ (gd s.arena (s.gates.getD p 0)).inputs, j ∈ s.gates.take p)
    (hd : ∀ i ∈ s.gates, d i = (if pred (gd s.arena i) then 1 else 0) +
      ((gd s.arena i).inputs.map d).foldl max 0) :
    ∀ suf pre, pre ++ suf = s.gates →
      List.foldlM (depthStep s pred) (pre.map d) suf = some (s.gates.map d) := by
  intro suf
  induction suf with
  | nil =>
    intro pre hps
    rw [List.append_nil] at hps
    subst hps
    rfl
  | cons i rest ih =>
    intro pre hps
    have hplen : pre.length < s.gates.length := by
      rw [← hps]
      simp only [List.length_append, List.length_cons]
      omega
    have hgi : s.gates.getD pre.length 0 = i := by
      rw [← hps, List.getD_append_right _ _ _ _ (Nat.le_refl _), Nat.sub_self]
      rfl
    have htake : s.gates.take pre.length = pre := by
      rw [← hps]
      exact List.take_left pre (i :: rest)
    have hins : ∀ j ∈ (gd s.arena i).inputs, j ∈ pre := by
      intro j hj
      have := horder pre.length hplen j (by rwa [hgi])
      rwa [htake] at this
    have hstep : depthStep s pred (pre.map d) i = some ((pre ++ [i]).map d) := by
      simp only [depthStep, depthIns_ok s d pre (i :: rest) hps.symm hnd _ hins]
      have hdi : (if pred (gd s.arena i) then 1 else 0) +
          ((gd s.arena i).inputs.map d).foldl max 0 = d i := by
        rw [hd i (by rw [← hps]; exact List.mem_append.mpr (Or.inr (List.mem_cons_self i rest)))]
      rw [hdi]
      simp
    have hbind : List.foldlM (depthStep s pred) (pre.map d) (i :: rest) =
        (depthStep s pred (pre.map d) i).bind
          (fun b => List.foldlM (depthStep s pred) b rest) := rfl
    rw [hbind, hstep]
    exact ih (pre ++ [i]) (by rw [List.append_assoc]; exact hps)

/-- C7: on a pruned-and-sorted circuit — duplicate-free gate list in which
every gate's inputs occur at strictly earlier positions — `circuit.depth`
returns `some` of the maximum (default 0) over the gate list of any function
`d` satisfying the specification's recurrence
`d(g) = (1 if predicate(g) else 0) + max(d over g.inputs, default 0)`;
in particular it returns 0 on a circuit with no gates. -/
theorem depth_correct (s : CState) (pred : Gate → Bool) (d : Nat → Nat)
    (hnd : s.gates.Nodup)
    (horder : ∀ p, p < s.gates.length →
      ∀ j ∈ (gd s.arena (s.gates.getD p 0)).inputs, j ∈ s.gates.take p)
    (hd : ∀ i ∈ s.gates, d i = (if pred (gd s.arena i) then 1 else 0) +
      ((gd s.arena i).inputs.map d).foldl max 0) :
    depthC s pred = some ((s.gates.map d).foldl max 0) := by
  unfold depthC
  rw [show ([] : List Nat) = (([] : List Nat).map d) from rfl,
    depth_fold s pred d hnd horder hd s.gates [] rfl]

/-- The two-input AND circuit with an output gate, as a concrete state. -/
def c7w : CState :=
  ⟨[⟨idOp, [], [2], 0, true, false, true⟩,
    ⟨idOp, [], [2], 1, true, false, true⟩,
    ⟨[0, 0, 0, 1], [0, 1], [3], 2, false, false, true⟩,
    ⟨idOp, [2], [], 3, false, true, true⟩], [0, 1, 2, 3]⟩

/-- The depth table of `c7w` under the always-true predicate. -/
def c7d : Nat → Nat := fun i => [1, 1, 2, 3].getD i 0

/-- Witness for C7 on the AND circuit: depth 3 when every gate counts. -/
theorem depth_correct_witness :
    (c7w.gates.Nodup ∧
     (∀ p, p < c7w.gates.length →
       ∀ j ∈ (gd c7w.arena (c7w.gates.getD p 0)).inputs, j ∈ c7w.gates.take p) ∧
     (∀ i ∈ c7w.gates, c7d i = (if (fun _ => true) (gd c7w.arena i) then 1 else 0) +
       ((gd c7w.arena i).inputs.map c7d).foldl max 0)) ∧
    depthC c7w (fun _ => true) = some 3 :=
  ⟨⟨by decide, by decide, by decide⟩, by
    have h := depth_correct c7w (fun _ => true) c7d (by decide) (by decide) (by decide)
    rw [h]
    decide⟩

/-! ### C1: evaluation before and after pruning -/

/-- The predicate `len(g.inputs) > 0 or g.operation in logical.nullary`
selecting the gates that compute a value during evaluation. -/
def computesB (g : Gate) : Bool :=
  !g.inputs.isEmpty || nullaryOps.contains g.operation

/-- `circuit.count(predicate)` = `len([() for g in self.gates if predicate(g)])`. -/
def countC (s : CState) (pred : Gate → Bool) : Nat :=
  (s.gates.filter (fun i => pred (gd s.arena i))).length

/-- `g.operation.function(*args)`: index the truth table by the big-endian
value of the argument bits; `none` models the `IndexError` on an
out-of-range index. -/
def opFun (o : Op) (args : List Nat) : Option Nat :=
  o[args.foldl (fun acc b => 2 * acc + b) 0]?

/-- The argument list `[wire[ig.index] for ig in g.inputs]`: `none` models
the `IndexError` from an out-of-range read or the `TypeError` from passing a
still-unset (`None`) wire entry to the operation. -/
def argsOf (a : List Gate) (w : List (Option Nat)) : List Nat → Option (List Nat)
  | [] => some []
  | j :: rest =>
    match w[(gd a j).index]? with
    | none => none
    | some none => none
    | some (some b) =>
      match argsOf a w rest with
      | none => none
      | some bs => some (b :: bs)

/-- One iteration of `for g in self.gates` in `circuit.evaluate`:
`wire[g.index] = g.operation.function(*[wire[ig.index] for ig in g.inputs])`
for computing gates; `none` models the `IndexError` on an out-of-range
write. -/
def evalStep (a : List Gate) (w : List (Option Nat)) (i : Nat) :
    Option (List (Option Nat)) :=
  if computesB (gd a i) then
    match argsOf a w (gd a i).inputs with
    | none => none
    | some args =>
      match opFun (gd a i).operation args with
      | none => none
      | some v =>
        if (gd a i).index < w.length then some (w.set (gd a i).index (some v))
        else none
  else some w

/-- Python's trailing slice `wire[-m:]`: the whole list when `m = 0`,
otherwise the last `m` entries (clamped). -/
def pySliceLast (m : Nat) (w : List (Option Nat)) : List (Option Nat) :=
  if m = 0 then w else w.drop (w.length - m)

/-- `circuit.evaluate(input)` with the default (format-free) signature:
check every bit is 0 or 1, build
`wire = input + [None] * count(computing gates)`, run the gate loop, and
return `wire[-count(effective output gates):]`.  `none` models any raised
exception. -/
def evalC (s : CState) (bs : List Nat) : Option (List (Option Nat)) :=
  if bs.all (fun b => b == 0 || b == 1) then
    match s.gates.foldlM (evalStep s.arena)
        (bs.map some ++ List.replicate (countC s computesB) none) with
    | none => none
    | some w =>
      some (pySliceLast (countC s (fun g => g.outputs.isEmpty && g.is_output)) w)
  else none

/-- C1 counterexample state: input gate `g0`, an output gate `g1 = id(g0)`,
and then a non-output gate `g2 = not(g0)` added after the output gate. -/
def c1s : CState :=
  ⟨[⟨idOp, [], [1, 2], 0, true, false, false⟩,
    ⟨idOp, [0], [], 1, false, true, false⟩,
    ⟨[1, 0], [0], [], 2, false, false, false⟩], [0, 1, 2]⟩

/-- `c1s` is the state built by `g0 = c.gate(op.id_, is_input=True);
g1 = c.gate(op.id_, [g0], is_output=True); g2 = c.gate(op.not_, [g0])`. -/
theorem c1s_buildable :
    (circuitGate (circuitGate (circuitGate emptyC
        idOp none true false).2
        idOp (some [some 0]) false true).2
        [1, 0] (some [some 0]) false false).2 = c1s := by
  decide

/-- C1 counterexample: evaluating `c1s` on `[0]` returns the *last* wire
(the dead NOT gate's value 1) because the trailing slice `wire[-1:]` picks
wire positions, not output gates; after pruning removes the dead gate the
same input evaluates to the output gate's value 0.  Pruning is therefore not
semantics-preserving on this circuit. -/
theorem evaluate_prune_cex :
    ∃ t, prune c1s = some t ∧ evalC c1s [0] = some [some 1] ∧
      evalC t [0] = some [some 0] ∧ ¬ evalC t [0] = evalC c1s [0] := by
  refine ⟨(prune c1s).getD emptyC, by decide, by decide, by decide, by decide⟩

/-- Option-valued map used by the denotation `valF`. -/
def mapO (f : Nat → Option Nat) : List Nat → Option (List Nat)
  | [] => some []
  | j :: rest =>
    match f j with
    | none => none
    | some v =>
      match mapO f rest with
      | none => none
      | some vs => some (v :: vs)

theorem mapO_congr {f g : Nat → Option Nat} {l : List Nat}
    (h : ∀ j ∈ l, f j = g j) : mapO f l = mapO g l := by
  induction l with
  | nil => rfl
  | cons j rest ih =>
    unfold mapO
    rw [h j (List.mem_cons_self j rest), ih (fun x hx => h x (List.mem_cons_of_mem j hx))]

theorem mapO_some {f : Nat → Option Nat} {g : Nat → Nat} {l : List Nat}
    (h : ∀ j ∈ l, f j = some (g j)) : mapO f l = some (l.map g) := by
  induction l with
  | nil => rfl
  | cons j rest ih =>
    unfold mapO
    rw [h j (List.mem_cons_self j rest),
      ih (fun x hx => h x (List.mem_cons_of_mem j hx)), List.map_cons]

/-- Fuel-based denotation of a gate: an input gate denotes the input bit at
its own position, any other gate denotes its operation applied to the
denotations of its inputs. -/
def valF (a : List Gate) (bs : List Nat) : Nat → Nat → Option Nat
  | 0, _ => none
  | f + 1, i =>
    if (gd a i).is_input then bs[i]?
    else
      match mapO (fun j => valF a bs f j) (gd a i).inputs with
      | none => none
      | some args => opFun (gd a i).operation args

/-- The denotation of gate `i`, with just enough fuel when inputs decrease. -/
def val (a : List Gate) (bs : List Nat) (i : Nat) : Option Nat :=
  valF a bs (i + 1) i

theorem valF_stable (a : List Gate) (bs : List Nat) (hdec : DecInputs a) :
    ∀ i f, i < f → valF a bs f i = val a bs i := by
  intro i
  induction i using Nat.strong_induction_on with
  | _ i ih =>
    intro f hf
    match f with
    | g + 1 =>
      by_cases hin : (gd a i).is_input = true
      · unfold val valF
        rw [if_pos hin, if_pos hin]
      · have hsm : ∀ j ∈ (gd a i).inputs, j < i := by
          intro j hj
          by_cases hlen : i < a.length
          · exact hdec i hlen j hj
          · rw [gd_oob a i (by omega)] at hj
            cases hj
        unfold val valF
        rw [if_neg hin, if_neg hin]
        have hmap : mapO (fun j => valF a bs g j) (gd a i).inputs =
            mapO (fun j => valF a bs i j) (gd a i).inputs := by
          apply mapO_congr
          intro j hj
          have hji := hsm j hj
          rw [ih j hji g (by omega), ih j hji i (by omega)]
        rw [hmap]

theorem valF_congr {a a' : List Gate} (bs : List Nat)
    (h : ∀ j, (gd a j).is_input = (gd a' j).is_input ∧
      (gd a j).inputs = (gd a' j).inputs ∧
      (gd a j).operation = (gd a' j).operation) :
    ∀ f i, valF a bs f i = valF a' bs f i := by
  intro f
  induction f with
  | zero => intro i; rfl
  | succ g ih =>
    intro i
    unfold valF
    rw [(h i).1, (h i).2.1, (h i).2.2]
    rw [mapO_congr (fun j _ => ih j)]

/-- Truth tables are well-formed: each non-input gate's operation has one
entry per assignment to its inputs, and every entry is a bit. -/
def OpsWF (s : CState) : Prop :=
  ∀ i, i < s.arena.length → (gd s.arena i).is_input = false →
    (gd s.arena i).operation.length = 2 ^ (gd s.arena i).inputs.length ∧
    ∀ v ∈ (gd s.arena i).operation, v = 0 ∨ v = 1

instance (s : CState) : Decidable (OpsWF s) := by
  unfold OpsWF
  infer_instance

/-- The layout produced by building a circuit in the documented order: the
first `k` gates are the input gates (identity gates), the last `m ≥ 1` gates
are the output gates, and no gate is both. -/
def BlockForm (s : CState) (k m : Nat) : Prop :=
  (∀ i, i < s.arena.length → ((gd s.arena i).is_input = true ↔ i < k)) ∧
  (∀ i, i < s.arena.length →
    ((gd s.arena i).is_output = true ↔ s.arena.length - m ≤ i)) ∧
  k + m ≤ s.arena.length ∧ 1 ≤ m ∧
  (∀ i, i < s.arena.length → (gd s.arena i).is_input = true →
    (gd s.arena i).operation = idOp)

instance (s : CState) (k m : Nat) : Decidable (BlockForm s k m) := by
  unfold BlockForm
  infer_instance

theorem foldl_bits_lt {args : List Nat} (h : ∀ b ∈ args, b = 0 ∨ b = 1) :
    ∀ c, args.foldl (fun acc b => 2 * acc + b) c < (c + 1) * 2 ^ args.length := by
  induction args with
  | nil => intro c; simpa using Nat.lt_succ_self c
  | cons b rest ih =>
    intro c
    have hb : b = 0 ∨ b = 1 := h b (List.mem_cons_self b rest)
    have h1 := ih (fun x hx => h x (List.mem_cons_of_mem b hx)) (2 * c + b)
    have h2 : (2 * c + b + 1) * 2 ^ rest.length ≤ (c + 1) * 2 ^ (rest.length + 1) := by
      rw [pow_succ]
      have : 2 * c + b + 1 ≤ (c + 1) * 2 := by omega
      calc (2 * c + b + 1) * 2 ^ rest.length ≤ (c + 1) * 2 * 2 ^ rest.length :=
            Nat.mul_le_mul_right _ this
        _ = (c + 1) * (2 ^ rest.length * 2) := by ring
    simp only [List.foldl_cons, List.length_cons]
    exact Nat.lt_of_lt_of_le h1 h2

theorem val_exists (s : CState) (bs : List Nat) (k m : Nat)
    (hdec : DecInputs s.arena) (hbf : BlockForm s k m) (hops : OpsWF s)
    (hbs : bs.length = k) (hbits : ∀ b ∈ bs, b = 0 ∨ b = 1) :
    ∀ i, i < s.arena.length →
      ∃ v, val s.arena bs i = some v ∧ (v = 0 ∨ v = 1) := by
  intro i
  induction i using Nat.strong_induction_on with
  | _ i ih =>
    intro hi
    by_cases hin : (gd s.arena i).is_input = true
    · have hik : i < bs.length := by
        rw [hbs]
        exact ((hbf.1 i hi).mp hin)
      refine ⟨bs[i], ?_, hbits _ (List.getElem_mem hik)⟩
      unfold val valF
      rw [if_pos hin]
      exact List.getElem?_eq_getElem hik
    · have hsm : ∀ j ∈ (gd s.arena i).inputs, j < i := hdec i hi
      have hmap : mapO (fun j => valF s.arena bs i j) (gd s.arena i).inputs =
          some ((gd s.arena i).inputs.map (fun j => (val s.arena bs j).getD 0)) := by
        apply mapO_some
        intro j hj
        have hji := hsm j hj
        obtain ⟨v, hv, -⟩ := ih j hji (by omega)
        rw [valF_stable s.arena bs hdec j i hji, hv]
        rfl
      have hargbits : ∀ b ∈ (gd s.arena i).inputs.map
          (fun j => (val s.arena bs j).getD 0), b = 0 ∨ b = 1 := by
        intro b hb
        obtain ⟨j, hj, hjb⟩ := List.mem_map.mp hb
        have hji := hsm j hj
        obtain ⟨v, hv, hvb⟩ := ih j hji (by omega)
        rw [← hjb, hv]
        exact hvb
      obtain ⟨hol, hob⟩ := hops i hi (by simpa using hin)
      have hidxlt : ((gd s.arena i).inputs.map
            (fun j => (val s.arena bs j).getD 0)).foldl
            (fun acc b => 2 * acc + b) 0 < (gd s.arena i).operation.length := by
        have := foldl_bits_lt hargbits 0
        rw [hol]
        simpa using this
      refine ⟨(gd s.arena i).operation[((gd s.arena i).inputs.map
          (fun j => (val s.arena bs j).getD 0)).foldl (fun acc b => 2 * acc + b) 0],
        ?_, hob _ (List.getElem_mem hidxlt)⟩
      unfold val valF
      rw [if_neg hin, hmap]
      unfold opFun
      exact List.getElem?_eq_getElem hidxlt

theorem val_noninput (s : CState) (bs : List Nat) (k m : Nat)
    (hdec : DecInputs s.arena) (hbf : BlockForm s k m) (hops : OpsWF s)
    (hbs : bs.length = k) (hbits : ∀ b ∈ bs, b = 0 ∨ b = 1)
    (i : Nat) (hi : i < s.arena.length) (hin : (gd s.arena i).is_input = false) :
    val s.arena bs i = opFun (gd s.arena i).operation
      ((gd s.arena i).inputs.map (fun j => (val s.arena bs j).getD 0)) := by
  have hmap : mapO (fun j => valF s.arena bs i j) (gd s.arena i).inputs =
      some ((gd s.arena i).inputs.map (fun j => (val s.arena bs j).getD 0)) := by
    apply mapO_some
    intro j hj
    have hji := hdec i hi j hj
    obtain ⟨v, hv, -⟩ := val_exists s bs k m hdec hbf hops hbs hbits j (by omega)
    rw [valF_stable s.arena bs hdec j i hji, hv]
    rfl
  unfold val valF
  rw [if_neg (by simpa using hin), hmap]
  rfl

theorem argsOf_some (a : List Gate) (w : List (Option Nat)) (W : Nat → Nat)
    {ins : List Nat} (h : ∀ j ∈ ins, w[(gd a j).index]? = some (some (W j))) :
    argsOf a w ins = some (ins.map W) := by
  induction ins with
  | nil => rfl
  | cons j rest ih =>
    simp only [argsOf, h j (List.mem_cons_self j rest),
      ih (fun x hx => h x (List.mem_cons_of_mem j hx)), List.map_cons]

/-- The wire-filling loop of `circuit.evaluate`, generically: if every gate
sits at the position its `index` names, non-computing positions start out
holding their target value, and each computing gate's inputs occur earlier
and its operation applied to their target values yields its own target
value, then the loop succeeds and leaves the target value `W` at every
position. -/
theorem eval_fold (a : List Gate) (coll : List Nat) (W : Nat → Nat)
    (hidx : ∀ p, p < coll.length → (gd a (coll.getD p 0)).index = p)
    (hcp : ∀ p, p < coll.length → computesB (gd a (coll.getD p 0)) = true →
      (∀ j ∈ (gd a (coll.getD p 0)).inputs, ∃ q, q < p ∧ coll.getD q 0 = j) ∧
      opFun (gd a (coll.getD p 0)).operation
        ((gd a (coll.getD p 0)).inputs.map W) = some (W (coll.getD p 0))) :
    ∀ suf pre w, pre ++ suf = coll → w.length = coll.length →
      (∀ q, q < pre.length → w.getD q none = some (W (coll.getD q 0))) →
      (∀ q, q < coll.length → computesB (gd a (coll.getD q 0)) = false →
        w.getD q none = some (W (coll.getD q 0))) →
      ∃ wf, List.foldlM (evalStep a) w suf = some wf ∧
        wf.length = coll.length ∧
        ∀ q, q < coll.length → wf.getD q none = some (W (coll.getD q 0)) := by
  intro suf
  induction suf with
  | nil =>
    intro pre w hps hwl hA hB
    rw [List.append_nil] at hps
    refine ⟨w, rfl, hwl, ?_⟩
    intro q hq
    exact hA q (by rw [hps]; exact hq)
  | cons i rest ih =>
    intro pre w hps hwl hA hB
    have hplen : pre.length < coll.length := by
      rw [← hps]
      simp only [List.length_append, List.length_cons]
      omega
    have hgi : coll.getD pre.length 0 = i := by
      rw [← hps, List.getD_append_right _ _ _ _ (Nat.le_refl _), Nat.sub_self]
      rfl
    have hbind : List.foldlM (evalStep a) w (i :: rest) =
        (evalStep a w i).bind (fun w2 => List.foldlM (evalStep a) w2 rest) := rfl
    by_cases hc : computesB (gd a i) = true
    · obtain ⟨hres, hop⟩ := hcp pre.length hplen (by rwa [hgi])
      rw [hgi] at hres hop
      have hargs : argsOf a w (gd a i).inputs = some ((gd a i).inputs.map W) := by
        apply argsOf_some
        intro j hj
        obtain ⟨q, hq1, hq2⟩ := hres j hj
        have hqc : q < coll.length := by omega
        rw [← hq2, hidx q hqc, hq2]
        rw [List.getElem?_eq_getElem (by omega : q < w.length)]
        have := hA q hq1
        rw [List.getD_eq_getElem?_getD, List.getElem?_eq_getElem
          (by omega : q < w.length)] at this
        rw [hq2] at this ⊢
        simp only [Option.getD_some] at this
        rw [this]
      have hiw : (gd a i).index < w.length := by
        rw [← hgi, hidx pre.length hplen]
        omega
      have hstep : evalStep a w i =
          some (w.set pre.length (some (W i))) := by
        unfold evalStep
        rw [if_pos hc, hargs]
        simp only
        rw [hop]
        simp only
        rw [if_pos (by rw [← hgi, hidx pre.length hplen]; omega), ← hgi,
          hidx pre.length hplen]
      rw [hbind, hstep]
      simp only [Option.some_bind]
      apply ih (pre ++ [i]) (w.set pre.length (some (W i)))
      · rw [List.append_assoc]
        exact hps
      · rw [List.length_set]
        exact hwl
      · intro q hq
        rw [List.length_append, List.length_cons] at hq
        simp only [List.length_nil] at hq
        rw [List.getD_eq_getElem?_getD]
        by_cases hqp : q = pre.length
        · subst hqp
          rw [List.getElem?_set_eq (by omega), hgi]
          rfl
        · have hqlt : q < pre.length := by omega
          rw [List.getElem?_set_ne (fun hh => hqp hh.symm)]
          rw [← List.getD_eq_getElem?_getD]
          exact hA q hqlt
      · intro q hq hnc
        by_cases hqp : q = pre.length
        · subst hqp
          rw [hgi] at hnc
          rw [hnc] at hc
          cases hc
        · rw [List.getD_eq_getElem?_getD,
            List.getElem?_set_ne (fun hh => hqp hh.symm),
            ← List.getD_eq_getElem?_getD]
          exact hB q hq hnc
    · have hstep : evalStep a w i = some w := by
        unfold evalStep
        rw [if_neg hc]
      rw [hbind, hstep]
      simp only [Option.some_bind]
      apply ih (pre ++ [i]) w
      · rw [List.append_assoc]
        exact hps
      · exact hwl
      · intro q hq
        rw [List.length_append, List.length_cons, List.length_nil] at hq
        by_cases hqp : q = pre.length
        · subst hqp
          rw [← hgi] at hc
          exact hB pre.length hplen (by simpa using hc)
        · exact hA q (by omega)
      · exact hB

theorem filter_range_split {n0 d : Nat} {p : Nat → Bool}
    (h1 : ∀ x, x < n0 → p x = false) (h2 : ∀ r, r < d → p (n0 + r) = true) :
    (List.range (n0 + d)).filter p = (List.range d).map (fun r => n0 + r) := by
  rw [List.range_add, List.filter_append]
  rw [List.filter_eq_nil_iff.mpr (fun x hx => by
    rw [h1 x (List.mem_range.mp hx)]; exact Bool.false_ne_true)]
  rw [List.filter_eq_self.mpr (fun x hx => by
    obtain ⟨r, hr, hxe⟩ := List.mem_map.mp hx
    rw [← hxe]; exact h2 r (List.mem_range.mp hr))]
  simp

theorem filter_range_keep {n0 d : Nat} {p : Nat → Bool}
    (h1 : ∀ x, x < n0 → p x = true) (h2 : ∀ r, r < d → p (n0 + r) = false) :
    (List.range (n0 + d)).filter p = List.range n0 := by
  rw [List.range_add, List.filter_append]
  rw [List.filter_eq_self.mpr (fun x hx => h1 x (List.mem_range.mp hx))]
  rw [List.filter_eq_nil_iff.mpr (fun x hx => by
    obtain ⟨r, hr, hxe⟩ := List.mem_map.mp hx
    rw [← hxe, h2 r (List.mem_range.mp hr)]; exact Bool.false_ne_true)]
  simp

theorem range_getD {n p : Nat} (h : p < n) : (List.range n).getD p 0 = p := by
  rw [List.getD_eq_getElem _ 0 (by simpa using h)]
  exact List.getElem_range p _

theorem computes_iff (s : CState) (k m : Nat) (hawf : ArenaWF s)
    (hinz : ∀ i, i < s.arena.length → (gd s.arena i).is_input = true →
      (gd s.arena i).inputs = [])
    (hbf : BlockForm s k m) :
    ∀ i, i < s.arena.length → (computesB (gd s.arena i) = true ↔ k ≤ i) := by
  intro i hi
  constructor
  · intro hc
    by_contra hik
    have hin : (gd s.arena i).is_input = true := (hbf.1 i hi).mpr (by omega)
    have hie : (gd s.arena i).inputs = [] := hinz i hi hin
    have hop : (gd s.arena i).operation = idOp := hbf.2.2.2.2 i hi hin
    unfold computesB at hc
    rw [hie, hop] at hc
    simp [nullaryOps, idOp] at hc
  · intro hk
    have hin : (gd s.arena i).is_input = false := by
      cases hb : (gd s.arena i).is_input
      · rfl
      · have := (hbf.1 i hi).mp hb
        omega
    rcases hawf.2.2.2 i hi hin with hne | hnul
    · unfold computesB
      have : (gd s.arena i).inputs.isEmpty = false := by
        cases hl : (gd s.arena i).inputs
        · exact absurd hl hne
        · rfl
      rw [this]
      rfl
    · unfold computesB
      have h2 : nullaryOps.contains (gd s.arena i).operation = true :=
        List.elem_eq_true_of_mem hnul
      rw [h2, Bool.or_true]

theorem inB_eq (s : CState) (k m : Nat) (hwf : CollWF s) (hnd : NoDual s)
    (hawf : ArenaWF s)
    (hfresh : s.gates = List.range s.arena.length)
    (hinz : ∀ i, i < s.arena.length → (gd s.arena i).is_input = true →
      (gd s.arena i).inputs = [])
    (hbf : BlockForm s k m) :
    inBlockOf s = List.range k := by
  have hkn : k ≤ s.arena.length := by
    have := hbf.2.2.1
    omega
  unfold inBlockOf
  rw [hfresh, show s.arena.length = k + (s.arena.length - k) from by omega]
  apply filter_range_keep
  · intro x hx
    have hxn : x < s.arena.length := by omega
    rw [inSelB_iff]
    rw [((arenaMarked_shape s).2 x).2.1, is_input_arenaMarked]
    exact ⟨hinz x hxn ((hbf.1 x hxn).mpr hx), (hbf.1 x hxn).mpr hx⟩
  · intro r hr
    have hxn : k + r < s.arena.length := by omega
    have hni : (gd s.arena (k + r)).is_input = false := by
      cases hb : (gd s.arena (k + r)).is_input
      · rfl
      · have := (hbf.1 _ hxn).mp hb
        omega
    cases hb : inSelB (arenaMarked s) (k + r)
    · rfl
    · obtain ⟨-, h2⟩ := (inSelB_iff _ _).mp hb
      rw [is_input_arenaMarked] at h2
      rw [h2] at hni
      cases hni

theorem outIds_eq (s : CState) (k m : Nat)
    (hawf : ArenaWF s)
    (hfresh : s.gates = List.range s.arena.length)
    (hbf : BlockForm s k m) :
    outIdsOf s = (List.range m).map (fun r => s.arena.length - m + r) := by
  have hmn : m ≤ s.arena.length := by
    have := hbf.2.2.1
    omega
  unfold outIdsOf
  rw [hfresh]
  rw [show List.range s.arena.length = List.range ((s.arena.length - m) + m) from by
    rw [show (s.arena.length - m) + m = s.arena.length from by omega]]
  apply filter_range_split
  · intro x hx
    have hxn : x < s.arena.length := by omega
    have hno : (gd s.arena x).is_output = false := by
      cases hb : (gd s.arena x).is_output
      · rfl
      · have := (hbf.2.1 x hxn).mp hb
        omega
    cases hb : effOutB s.arena x
    · rfl
    · obtain ⟨-, -, h3⟩ := (effOutB_iff _ _).mp hb
      rw [h3] at hno
      cases hno
  · intro r hr
    have hxn : s.arena.length - m + r < s.arena.length := by omega
    have ho : (gd s.arena (s.arena.length - m + r)).is_output = true :=
      (hbf.2.1 _ hxn).mpr (by omega)
    obtain ⟨h1, h2⟩ := hawf.2.2.1 _ hxn ho
    rw [effOutB_iff]
    exact ⟨h1, h2, ho⟩

theorem intB_bounds (s : CState) (k m : Nat) (hwf : CollWF s)
    (hfresh : s.gates = List.range s.arena.length)
    (hbf : BlockForm s k m) :
    ∀ x ∈ intBlockOf s, k ≤ x ∧ x < s.arena.length - m := by
  intro x hx
  obtain ⟨hxg, hsel⟩ := mem_intBlock hx
  have hxn : x < s.arena.length := hwf.1 x hxg
  obtain ⟨-, -, hni, hno, -⟩ := (intSelB_iff _ _).mp hsel
  rw [is_input_arenaMarked] at hni
  rw [is_output_arenaMarked] at hno
  constructor
  · by_contra hxk
    have := (hbf.1 x hxn).mpr (by omega)
    rw [this] at hni
    cases hni
  · by_contra hxm
    have := (hbf.2.1 x hxn).mpr (by omega)
    rw [this] at hno
    cases hno

theorem wire_as_map {w : List (Option Nat)} {coll : List Nat} (W : Nat → Nat)
    (hl : w.length = coll.length)
    (hp : ∀ q, q < coll.length → w.getD q none = some (W (coll.getD q 0))) :
    w = coll.map (fun i => some (W i)) := by
  apply List.ext_getElem (by simpa using hl)
  intro q hq hq'
  have hqc : q < coll.length := by omega
  have h1 := hp q hqc
  rw [List.getD_eq_getElem?_getD, List.getElem?_eq_getElem (by omega)] at h1
  simp only [Option.getD_some] at h1
  rw [List.getElem_map, h1, List.getD_eq_getElem coll 0 hqc]

theorem slice_map (m : Nat) (l1 l2 : List Nat) (f : Nat → Option Nat)
    (hm : l2.length = m) (hm0 : m ≠ 0) :
    pySliceLast m ((l1 ++ l2).map f) = l2.map f := by
  unfold pySliceLast
  rw [if_neg hm0, List.length_map, List.length_append, hm, Nat.add_sub_cancel,
    List.map_append]
  rw [show l1.length = (l1.map f).length from (List.length_map l1 f).symm,
    List.drop_left]

theorem bits_all {bs : List Nat} (h : ∀ b ∈ bs, b = 0 ∨ b = 1) :
    bs.all (fun b => b == 0 || b == 1) = true := by
  rw [List.all_eq_true]
  intro b hb
  rcases h b hb with h1 | h1 <;> rw [h1] <;> rfl

/-- The (defaulted) bit denoted by a gate. -/
def valD (a : List Gate) (bs : List Nat) (j : Nat) : Nat := (val a bs j).getD 0

theorem count_computes_s (s : CState) (k m : Nat) (hawf : ArenaWF s)
    (hfresh : s.gates = List.range s.arena.length)
    (hinz : ∀ i, i < s.arena.length → (gd s.arena i).is_input = true →
      (gd s.arena i).inputs = [])
    (hbf : BlockForm s k m) :
    countC s computesB = s.arena.length - k := by
  have hkn : k ≤ s.arena.length := by
    have := hbf.2.2.1
    omega
  have hciff := computes_iff s k m hawf hinz hbf
  unfold countC
  rw [hfresh]
  rw [show List.range s.arena.length = List.range (k + (s.arena.length - k)) from by
    rw [show k + (s.arena.length - k) = s.arena.length from by omega]]
  rw [filter_range_split (fun x hx => ?_) (fun r hr => ?_)]
  · rw [List.length_map, List.length_range]
  · cases hb : computesB (gd s.arena x)
    · rfl
    · have := (hciff x (by omega)).mp hb
      omega
  · exact (hciff (k + r) (by omega)).mpr (by omega)

theorem mcount_s (s : CState) (k m : Nat) (hawf : ArenaWF s)
    (hfresh : s.gates = List.range s.arena.length)
    (hbf : BlockForm s k m) :
    countC s (fun g => g.outputs.isEmpty && g.is_output) = m := by
  have hmn : m ≤ s.arena.length := by
    have := hbf.2.2.1
    omega
  unfold countC
  rw [hfresh]
  rw [show List.range s.arena.length = List.range ((s.arena.length - m) + m) from by
    rw [show (s.arena.length - m) + m = s.arena.length from by omega]]
  rw [filter_range_split (fun x hx => ?_) (fun r hr => ?_)]
  · rw [List.length_map, List.length_range]
  · have hno : (gd s.arena x).is_output = false := by
      cases hb : (gd s.arena x).is_output
      · rfl
      · have := (hbf.2.1 x (by omega)).mp hb
        omega
    show ((gd s.arena x).outputs.isEmpty && (gd s.arena x).is_output) = false
    rw [hno, Bool.and_false]
  · have hxn : s.arena.length - m + r < s.arena.length := by omega
    have ho : (gd s.arena (s.arena.length - m + r)).is_output = true :=
      (hbf.2.1 _ hxn).mpr (by omega)
    obtain ⟨h1, -⟩ := hawf.2.2.1 _ hxn ho
    show ((gd s.arena (s.arena.length - m + r)).outputs.isEmpty &&
      (gd s.arena (s.arena.length - m + r)).is_output) = true
    rw [ho, h1]
    rfl

theorem val_input (s : CState) (bs : List Nat) (k m : Nat)
    (hbf : BlockForm s k m) (hbs : bs.length = k)
    (q : Nat) (hq : q < s.arena.length) (hqk : q < k) :
    val s.arena bs q = some (bs.getD q 0) := by
  have hin : (gd s.arena q).is_input = true := (hbf.1 q hq).mpr hqk
  have hqb : q < bs.length := by omega
  unfold val valF
  rw [if_pos hin, List.getElem?_eq_getElem hqb, List.getD_eq_getElem bs 0 hqb]

/-- Evaluation of a block-form circuit before pruning: the trailing slice of
the finished wire list is exactly the output gates' denotations. -/
theorem eval_before_prune (s : CState) (bs : List Nat) (k m : Nat)
    (hwf : CollWF s) (hnd : NoDual s) (hawf : ArenaWF s)
    (hfresh : s.gates = List.range s.arena.length)
    (hinz : ∀ i, i < s.arena.length → (gd s.arena i).is_input = true →
      (gd s.arena i).inputs = [])
    (hbf : BlockForm s k m) (hops : OpsWF s)
    (hbs : bs.length = k) (hbits : ∀ b ∈ bs, b = 0 ∨ b = 1) :
    evalC s bs = some ((outIdsOf s).map (fun i => val s.arena bs i)) := by
  have hkmn := hbf.2.2.1
  have hm1 := hbf.2.2.2.1
  have hglen : s.gates.length = s.arena.length := by
    rw [hfresh, List.length_range]
  have hciff := computes_iff s k m hawf hinz hbf
  have hcp : ∀ p, p < s.gates.length →
      computesB (gd s.arena (s.gates.getD p 0)) = true →
      (∀ j ∈ (gd s.arena (s.gates.getD p 0)).inputs,
        ∃ q, q < p ∧ s.gates.getD q 0 = j) ∧
      opFun (gd s.arena (s.gates.getD p 0)).operation
        ((gd s.arena (s.gates.getD p 0)).inputs.map (valD s.arena bs)) =
        some (valD s.arena bs (s.gates.getD p 0)) := by
    intro p hp hc
    have hpn : p < s.arena.length := by omega
    have hgp : s.gates.getD p 0 = p := by
      rw [hfresh]
      exact range_getD hpn
    rw [hgp] at hc ⊢
    have hpk : k ≤ p := (hciff p hpn).mp hc
    have hni : (gd s.arena p).is_input = false := by
      cases hb : (gd s.arena p).is_input
      · rfl
      · have := (hbf.1 p hpn).mp hb
        omega
    constructor
    · intro j hj
      have hjp : j < p := hawf.1 p hpn j hj
      refine ⟨j, hjp, ?_⟩
      rw [hfresh]
      exact range_getD (by omega)
    · have he := val_noninput s bs k m hawf.1 hbf hops hbs hbits p hpn hni
      obtain ⟨v, hv, -⟩ := val_exists s bs k m hawf.1 hbf hops hbs hbits p hpn
      rw [hv] at he
      unfold valD
      rw [← he, hv]
      rfl
  obtain ⟨wf, hfold, hwl, hwp⟩ := eval_fold s.arena s.gates (valD s.arena bs)
    hwf.2 hcp s.gates []
    (bs.map some ++ List.replicate (countC s computesB) none)
    rfl
    (by
      rw [List.length_append, List.length_map, List.length_replicate, hbs,
        count_computes_s s k m hawf hfresh hinz hbf, hglen]
      omega)
    (by intro q hq; cases hq)
    (by
      intro q hq hnc
      have hqn : q < s.arena.length := by omega
      have hgq : s.gates.getD q 0 = q := by
        rw [hfresh]
        exact range_getD hqn
      rw [hgq] at hnc ⊢
      have hqk : q < k := by
        by_contra hh
        rw [(hciff q hqn).mpr (by omega)] at hnc
        cases hnc
      have hqb : q < (bs.map some).length := by
        rw [List.length_map]
        omega
      have hqb2 : q < bs.length := by omega
      rw [List.getD_append _ _ _ _ hqb, List.getD_eq_getElem?_getD,
        List.getElem?_eq_getElem hqb, List.getElem_map]
      unfold valD
      rw [val_input s bs k m hbf hbs q hqn hqk, List.getD_eq_getElem bs 0 hqb2]
      rfl)
  unfold evalC
  rw [if_pos (bits_all hbits)]
  simp only [hfold]
  rw [mcount_s s k m hawf hfresh hbf]
  have hwmap := wire_as_map (valD s.arena bs) hwl hwp
  rw [hwmap, hfresh]
  rw [show List.range s.arena.length = List.range ((s.arena.length - m) + m) from by
    rw [show (s.arena.length - m) + m = s.arena.length from by omega]]
  rw [List.range_add]
  rw [slice_map m _ _ _ (by rw [List.length_map, List.length_range]) (by omega)]
  rw [outIds_eq s k m hawf hfresh hbf]
  congr 1
  apply List.map_congr_left
  intro x hx
  obtain ⟨r, hr, hxe⟩ := List.mem_map.mp hx
  have hxn : x < s.arena.length := by
    rw [← hxe]
    have := List.mem_range.mp hr
    omega
  obtain ⟨v, hv, -⟩ := val_exists s bs k m hawf.1 hbf hops hbs hbits x hxn
  show some (valD s.arena bs x) = val s.arena bs x
  rw [hv]
  unfold valD
  rw [hv]
  rfl

theorem getD_mem {l : List Nat} {p : Nat} (h : p < l.length) : l.getD p 0 ∈ l := by
  rw [List.getD_eq_getElem l 0 h]
  exact List.getElem_mem h

theorem pos_of_mem_lt {l : List Nat} (hpw : l.Pairwise (· < ·)) {p j : Nat}
    (hp : p < l.length) (hj : j ∈ l) (hlt : j < l.getD p 0) :
    ∃ q, q < p ∧ l.getD q 0 = j := by
  obtain ⟨q, hq⟩ := List.mem_iff_getElem.mp hj
  obtain ⟨hql, hqe⟩ := hq
  refine ⟨q, ?_, ?_⟩
  · by_contra hqp
    have hpq : p ≤ q := by omega
    rcases Nat.eq_or_lt_of_le hpq with he | hlt2
    · subst he
      rw [List.getD_eq_getElem l 0 hp, hqe] at hlt
      omega
    · have hpl := (List.pairwise_iff_getElem.mp hpw) p q hp hql hlt2
      rw [hqe] at hpl
      rw [List.getD_eq_getElem l 0 hp] at hlt
      omega
  · rw [List.getD_eq_getElem l 0 hql, hqe]

theorem opFun_valD (s : CState) (bs : List Nat) (k m : Nat)
    (hawf : ArenaWF s) (hbf : BlockForm s k m) (hops : OpsWF s)
    (hbs : bs.length = k) (hbits : ∀ b ∈ bs, b = 0 ∨ b = 1)
    (i : Nat) (hi : i < s.arena.length) (hni : (gd s.arena i).is_input = false) :
    opFun (gd s.arena i).operation
      ((gd s.arena i).inputs.map (valD s.arena bs)) =
      some (valD s.arena bs i) := by
  have he := val_noninput s bs k m hawf.1 hbf hops hbs hbits i hi hni
  obtain ⟨v, hv, -⟩ := val_exists s bs k m hawf.1 hbf hops hbs hbits i hi
  rw [hv] at he
  unfold valD
  rw [← he, hv]
  rfl

theorem newColl_pairwise (s : CState) (k m : Nat) (hwf : CollWF s)
    (hnd : NoDual s) (hawf : ArenaWF s)
    (hfresh : s.gates = List.range s.arena.length)
    (hinz : ∀ i, i < s.arena.length → (gd s.arena i).is_input = true →
      (gd s.arena i).inputs = [])
    (hbf : BlockForm s k m) :
    (newCollOf s).Pairwise (· < ·) := by
  have hrange : s.gates.Pairwise (· < ·) := by
    rw [hfresh]
    exact List.pairwise_lt_range s.arena.length
  have hinP : (inBlockOf s).Pairwise (· < ·) :=
    hrange.sublist (List.filter_sublist s.gates)
  have hintP : (intBlockOf s).Pairwise (· < ·) :=
    hrange.sublist (List.filter_sublist s.gates)
  have houtP : (outIdsOf s).Pairwise (· < ·) :=
    hrange.sublist (List.filter_sublist s.gates)
  have hkm : k + m ≤ s.arena.length := hbf.2.2.1
  have hinBd : ∀ x ∈ inBlockOf s, x < k := by
    intro x hx
    rw [inB_eq s k m hwf hnd hawf hfresh hinz hbf] at hx
    exact List.mem_range.mp hx
  have hintBd := intB_bounds s k m hwf hfresh hbf
  have houtBd : ∀ x ∈ outIdsOf s, s.arena.length - m ≤ x := by
    intro x hx
    rw [outIds_eq s k m hawf hfresh hbf] at hx
    obtain ⟨r, -, hxe⟩ := List.mem_map.mp hx
    omega
  unfold newCollOf
  rw [List.pairwise_append]
  refine ⟨?_, houtP, ?_⟩
  · rw [List.pairwise_append]
    refine ⟨hinP, hintP, ?_⟩
    intro x hx y hy
    have h1 := hinBd x hx
    have h2 := (hintBd y hy).1
    omega
  · intro x hx y hy
    have h2 := houtBd y hy
    rcases List.mem_append.mp hx with h1 | h1
    · have := hinBd x h1
      omega
    · have := (hintBd x h1).2
      omega

/-- Evaluation of a block-form circuit after pruning, phrased against the
pruned state's characterization: the result is again the output gates'
denotations in the original arena. -/
theorem eval_after_prune (s t : CState) (bs : List Nat) (k m : Nat)
    (hwf : CollWF s) (hnd : NoDual s) (hawf : ArenaWF s)
    (hfresh : s.gates = List.range s.arena.length)
    (hinz : ∀ i, i < s.arena.length → (gd s.arena i).is_input = true →
      (gd s.arena i).inputs = [])
    (hbf : BlockForm s k m) (hops : OpsWF s)
    (hbs : bs.length = k) (hbits : ∀ b ∈ bs, b = 0 ∨ b = 1)
    (hg : t.gates = newCollOf s) (hl : t.arena.length = s.arena.length)
    (hidxT : ∀ r, r < (newCollOf s).length →
      (gd t.arena ((newCollOf s).getD r 0)).index = r)
    (hsbi : ∀ j, sameButIndex (gd t.arena j) (gd (arenaMarked s) j)) :
    evalC t bs = some ((outIdsOf s).map (fun i => val s.arena bs i)) := by
  have hkmn := hbf.2.2.1
  have hm1 := hbf.2.2.2.1
  have hmemiff : ∀ i, i ∈ s.gates ↔ i < s.arena.length := by
    intro i
    rw [hfresh]
    exact List.mem_range
  have htf : ∀ j, (gd t.arena j).inputs = (gd s.arena j).inputs ∧
      (gd t.arena j).outputs = (gd s.arena j).outputs ∧
      (gd t.arena j).operation = (gd s.arena j).operation ∧
      (gd t.arena j).is_input = (gd s.arena j).is_input ∧
      (gd t.arena j).is_output = (gd s.arena j).is_output := by
    intro j
    obtain ⟨h1, h2, h3, h4, h5, h6⟩ := hsbi j
    obtain ⟨g1, g2, g3, g4, g5, g6⟩ := (arenaMarked_shape s).2 j
    exact ⟨h2.trans g2, h3.trans g3, h1.trans g1, h4.trans g5, h5.trans g6⟩
  have hcompT : ∀ j, computesB (gd t.arena j) = computesB (gd s.arena j) := by
    intro j
    unfold computesB
    rw [(htf j).1, (htf j).2.2.1]
  have hciff := computes_iff s k m hawf hinz hbf
  have hm := arenaMarked_marks s hawf.1 (fun i hi => (hmemiff i).mp hi)
    (fun i hi hin => absurd ((hmemiff i).mpr hi) hin)
  have hsurv := marked_survives s hwf hnd hawf hfresh hinz
  have hPW := newColl_pairwise s k m hwf hnd hawf hfresh hinz hbf
  have hinBeq := inB_eq s k m hwf hnd hawf hfresh hinz hbf
  have houtEq := outIds_eq s k m hawf hfresh hbf
  have houtLen : (outIdsOf s).length = m := by
    rw [houtEq, List.length_map, List.length_range]
  have hcollLen : (newCollOf s).length =
      k + ((intBlockOf s).length + (outIdsOf s).length) := by
    unfold newCollOf
    rw [List.length_append, List.length_append, hinBeq, List.length_range]
    omega
  have hmemN : ∀ x ∈ newCollOf s, x < s.arena.length := by
    intro x hx
    exact (hmemiff x).mp (newColl_sub hx)
  -- the id found at a position below k is that position itself
  have hgetLow : ∀ p, p < k → (newCollOf s).getD p 0 = p := by
    intro p hp
    unfold newCollOf
    have hpl : p < (inBlockOf s ++ intBlockOf s).length := by
      rw [List.length_append, hinBeq, List.length_range]
      omega
    rw [List.getD_append _ _ _ _ hpl]
    have hpl2 : p < (inBlockOf s).length := by
      rw [hinBeq, List.length_range]
      omega
    rw [List.getD_append _ _ _ _ hpl2, hinBeq]
    exact range_getD hp
  -- a surviving computing gate is marked or an effective output
  have hreach : ∀ i ∈ newCollOf s, k ≤ i →
      ∃ o ∈ outIdsOf s, Reach s.arena o i := by
    intro i hi hk
    unfold newCollOf at hi
    rcases List.mem_append.mp hi with h1 | h1
    · rcases List.mem_append.mp h1 with h2 | h2
      · have := (mem_inBlock h2).2
        have hx : i < k := by
          rw [hinBeq] at h2
          exact List.mem_range.mp h2
        omega
      · have hmk := ((intSelB_iff _ _).mp (mem_intBlock h2).2).2.2.2.2
        exact (hm i).mp hmk
    · exact ⟨i, h1, Reach.refl i⟩
  -- count of computing gates in the pruned collection
  have hfiltComp : t.gates.filter (fun i => computesB (gd t.arena i)) =
      intBlockOf s ++ outIdsOf s := by
    rw [hg]
    unfold newCollOf
    rw [List.filter_append, List.filter_append]
    have h1 : (inBlockOf s).filter (fun i => computesB (gd t.arena i)) = [] := by
      apply List.filter_eq_nil_iff.mpr
      intro x hx
      have hxk : x < k := by
        rw [hinBeq] at hx
        exact List.mem_range.mp hx
      have hxn : x < s.arena.length := by omega
      rw [hcompT]
      intro hc
      have := (hciff x hxn).mp hc
      omega
    have h2 : (intBlockOf s).filter (fun i => computesB (gd t.arena i)) =
        intBlockOf s := by
      apply List.filter_eq_self.mpr
      intro x hx
      have hb := intB_bounds s k m hwf hfresh hbf x hx
      have hxn : x < s.arena.length := by omega
      rw [hcompT]
      exact (hciff x hxn).mpr hb.1
    have h3 : (outIdsOf s).filter (fun i => computesB (gd t.arena i)) =
        outIdsOf s := by
      apply List.filter_eq_self.mpr
      intro x hx
      have hxm : s.arena.length - m ≤ x := by
        rw [houtEq] at hx
        obtain ⟨r, -, hxe⟩ := List.mem_map.mp hx
        omega
      have hxn : x < s.arena.length := (hmemiff x).mp (mem_outIds hx).1
      rw [hcompT]
      exact (hciff x hxn).mpr (by omega)
    rw [h1, h2, h3]
    rfl
  have hcntT : countC t computesB = (intBlockOf s).length + (outIdsOf s).length := by
    unfold countC
    rw [hfiltComp, List.length_append]
  have hmcntT : countC t (fun g => g.outputs.isEmpty && g.is_output) = m := by
    unfold countC
    rw [hg]
    unfold newCollOf
    rw [List.filter_append, List.filter_append]
    have h1 : (inBlockOf s).filter
        (fun i => (gd t.arena i).outputs.isEmpty && (gd t.arena i).is_output) = [] := by
      apply List.filter_eq_nil_iff.mpr
      intro x hx
      have hxk : x < k := by
        rw [hinBeq] at hx
        exact List.mem_range.mp hx
      have hxn : x < s.arena.length := by omega
      have hno : (gd s.arena x).is_output = false := by
        cases hb : (gd s.arena x).is_output
        · rfl
        · have := (hbf.2.1 x hxn).mp hb
          omega
      rw [(htf x).2.2.2.2, hno, Bool.and_false]
      exact Bool.false_ne_true
    have h2 : (intBlockOf s).filter
        (fun i => (gd t.arena i).outputs.isEmpty && (gd t.arena i).is_output) = [] := by
      apply List.filter_eq_nil_iff.mpr
      intro x hx
      have hno := ((intSelB_iff _ _).mp (mem_intBlock hx).2).2.2.2.1
      rw [is_output_arenaMarked] at hno
      rw [(htf x).2.2.2.2, hno, Bool.and_false]
      exact Bool.false_ne_true
    have h3 : (outIdsOf s).filter
        (fun i => (gd t.arena i).outputs.isEmpty && (gd t.arena i).is_output) =
        outIdsOf s := by
      apply List.filter_eq_self.mpr
      intro x hx
      obtain ⟨ho1, -, ho3⟩ := (effOutB_iff _ _).mp (mem_outIds hx).2
      rw [(htf x).2.1, (htf x).2.2.2.2, ho1, ho3]
      rfl
    rw [h1, h2, h3]
    simp [houtLen]
  -- eval_fold hypotheses for the pruned state
  have hglenT : t.gates.length = (newCollOf s).length := by
    rw [hg]
  have hcpT : ∀ p, p < t.gates.length →
      computesB (gd t.arena (t.gates.getD p 0)) = true →
      (∀ j ∈ (gd t.arena (t.gates.getD p 0)).inputs,
        ∃ q, q < p ∧ t.gates.getD q 0 = j) ∧
      opFun (gd t.arena (t.gates.getD p 0)).operation
        ((gd t.arena (t.gates.getD p 0)).inputs.map (valD s.arena bs)) =
        some (valD s.arena bs (t.gates.getD p 0)) := by
    intro p hp hc
    rw [hg] at hp ⊢
    rw [hg] at hc
    have hip : (newCollOf s).getD p 0 ∈ newCollOf s := getD_mem hp
    set i := (newCollOf s).getD p 0 with hi
    have hin : i < s.arena.length := hmemN i hip
    rw [hcompT] at hc
    have hik : k ≤ i := (hciff i hin).mp hc
    have hni : (gd s.arena i).is_input = false := by
      cases hb : (gd s.arena i).is_input
      · rfl
      · have := (hbf.1 i hin).mp hb
        omega
    obtain ⟨o, ho, hro⟩ := hreach i hip hik
    constructor
    · intro j hj
      rw [(htf i).1] at hj
      have hji : j < i := hawf.1 i hin j hj
      have hrj : Reach s.arena o j :=
        Reach_trans hro (Reach.step hj (Reach.refl j))
      have hjm : (gd (arenaMarked s) j).is_marked = true := (hm j).mpr ⟨o, ho, hrj⟩
      have hjc : j ∈ newCollOf s := hsurv j hjm
      exact pos_of_mem_lt hPW hp hjc (by rw [← hi]; omega)
    · rw [(htf i).1, (htf i).2.2.1]
      exact opFun_valD s bs k m hawf hbf hops hbs hbits i hin hni
  have hncT : ∀ p, p < t.gates.length →
      computesB (gd t.arena (t.gates.getD p 0)) = false →
      (bs.map some ++ List.replicate (countC t computesB) none).getD p none =
        some (valD s.arena bs (t.gates.getD p 0)) := by
    intro p hp hnc
    rw [hg] at hp ⊢
    rw [hg] at hnc
    have hip : (newCollOf s).getD p 0 ∈ newCollOf s := getD_mem hp
    set i := (newCollOf s).getD p 0 with hi
    have hin : i < s.arena.length := hmemN i hip
    rw [hcompT] at hnc
    have hik : i < k := by
      by_contra hh
      rw [(hciff i hin).mpr (by omega)] at hnc
      cases hnc
    -- the position of a small id is the id itself
    have hpi : p = i := by
      have hnodup := newColl_nodup s hwf hnd
      have hikl : i < (newCollOf s).length := by
        rw [hcollLen]
        omega
      apply nodup_getD_inj hnodup hp hikl
      rw [← hi, hgetLow i hik]
    rw [hpi]
    have hqb : i < (bs.map some).length := by
      rw [List.length_map]
      omega
    have hqb2 : i < bs.length := by omega
    rw [List.getD_append _ _ _ _ hqb, List.getD_eq_getElem?_getD,
      List.getElem?_eq_getElem hqb, List.getElem_map]
    unfold valD
    rw [val_input s bs k m hbf hbs i (by omega) hik, List.getD_eq_getElem bs 0 hqb2]
    rfl
  obtain ⟨wf, hfold, hwl, hwp⟩ := eval_fold t.arena t.gates (valD s.arena bs)
    (by
      intro p hp
      rw [hg] at hp ⊢
      exact hidxT p hp)
    hcpT t.gates []
    (bs.map some ++ List.replicate (countC t computesB) none)
    rfl
    (by
      rw [List.length_append, List.length_map, List.length_replicate, hbs,
        hcntT, hglenT, hcollLen])
    (by intro q hq; cases hq)
    hncT
  unfold evalC
  rw [if_pos (bits_all hbits)]
  simp only [hfold]
  rw [hmcntT]
  have hwmap := wire_as_map (valD s.arena bs) hwl hwp
  rw [hwmap, hg]
  rw [show newCollOf s = (inBlockOf s ++ intBlockOf s) ++ outIdsOf s from rfl]
  rw [slice_map m _ _ _ houtLen (by omega)]
  congr 1
  apply List.map_congr_left
  intro x hx
  have hxn : x < s.arena.length := (hmemiff x).mp (mem_outIds hx).1
  obtain ⟨v, hv, -⟩ := val_exists s bs k m hawf.1 hbf hops hbs hbits x hxn
  show some (valD s.arena bs x) = val s.arena bs x
  rw [hv]
  unfold valD
  rw [hv]
  rfl

/-- C1 (amended): on a circuit whose gate list is the whole arena in
construction order and laid out in block form — the `k` input gates
(identity, no inputs) first, the `m ≥ 1` output gates last, no dual-role
gate, well-formed arena links and truth tables — evaluation commutes with
`prune_and_topological_sort_stable` on every valid bit vector, and both runs
return the output gates' denotations.  Without the layout requirement the
claim is false: the trailing slice `wire[-m:]` in `evaluate` picks wire
positions, not output gates, so pre-prune evaluation reads whatever gates
happen to sit last. -/
theorem evaluate_prune_preserved (s : CState) (bs : List Nat) (k m : Nat)
    (hwf : CollWF s) (hnd : NoDual s) (hawf : ArenaWF s)
    (hfresh : s.gates = List.range s.arena.length)
    (hinz : ∀ i, i < s.arena.length → (gd s.arena i).is_input = true →
      (gd s.arena i).inputs = [])
    (hbf : BlockForm s k m) (hops : OpsWF s)
    (hbs : bs.length = k) (hbits : ∀ b ∈ bs, b = 0 ∨ b = 1) :
    ∃ t, prune s = some t ∧ evalC t bs = evalC s bs ∧
      evalC s bs = some ((outIdsOf s).map (fun i => val s.arena bs i)) := by
  obtain ⟨t, hp, hg, hl, hidx, hsbi, hun⟩ := prune_spec s hwf hnd
  have hS := eval_before_prune s bs k m hwf hnd hawf hfresh hinz hbf hops hbs hbits
  have hT := eval_after_prune s t bs k m hwf hnd hawf hfresh hinz hbf hops hbs
    hbits hg hl hidx hsbi
  exact ⟨t, hp, hT.trans hS.symm, hS⟩

/-- The two-input AND circuit in block form, as a concrete state. -/
def c1w : CState :=
  ⟨[⟨idOp, [], [2], 0, true, false, false⟩,
    ⟨idOp, [], [2], 1, true, false, false⟩,
    ⟨[0, 0, 0, 1], [0, 1], [3], 2, false, false, false⟩,
    ⟨idOp, [2], [], 3, false, true, false⟩], [0, 1, 2, 3]⟩

/-- Witness for C1 (amended) on the AND circuit with input `[0, 1]`. -/
theorem evaluate_prune_preserved_witness :
    (CollWF c1w ∧ NoDual c1w ∧ ArenaWF c1w ∧
     c1w.gates = List.range c1w.arena.length ∧
     (∀ i, i < c1w.arena.length → (gd c1w.arena i).is_input = true →
       (gd c1w.arena i).inputs = []) ∧
     BlockForm c1w 2 1 ∧ OpsWF c1w ∧
     ([0, 1] : List Nat).length = 2 ∧
     (∀ b ∈ ([0, 1] : List Nat), b = 0 ∨ b = 1)) ∧
    ∃ t, prune c1w = some t ∧ evalC t [0, 1] = evalC c1w [0, 1] ∧
      evalC c1w [0, 1] =
        some ((outIdsOf c1w).map (fun i => val c1w.arena [0, 1] i)) :=
  ⟨⟨by decide, by decide, by decide, by decide, by decide, by decide, by decide,
    by decide, by decide⟩,
   evaluate_prune_preserved c1w [0, 1] 2 1 (by decide) (by decide) (by decide)
     (by decide) (by decide) (by decide) (by decide) (by decide) (by decide)⟩

end CircuitPy
